import Mathlib

/-! Region quadtree (`hito2.cpp`): shallow embedding and verification.

Coordinates (`double` in the source) are modelled as exact rationals.  A node of the
source (`boundary`, `puntos`, `dividido`, four child pointers) is a value of `Quadtree`:
the constructor `hoja` is a node with `dividido = false` (its four pointers are null), the
constructor `rama` is a node with `dividido = true` and its four children.  Both keep the
node's own `puntos` vector.  `insertar` can recurse without bound in the source, so its
embedding takes a recursion budget and returns `none` when the budget is exhausted.

A second, pointer-level representation (`Puntero`, with the flag and four nullable child
pointers in every node) carries the same operations with null dereference as an explicit
outcome; the embedding on `Quadtree` is proved to simulate it.
-/

namespace Hito2

/-- A point of the plane: `struct Point`. -/
structure Point where
  x : ℚ
  y : ℚ
  deriving DecidableEq

/-- A rectangle given by centre `(x, y)` and half-extents `(w, h)`: `struct Rect`. -/
structure Rect where
  x : ℚ
  y : ℚ
  w : ℚ
  h : ℚ
  deriving DecidableEq

/-- The method `Rect::contains`. -/
def Rect.contains (r : Rect) (p : Point) : Bool :=
  decide (p.x ≥ r.x - r.w) && decide (p.x ≤ r.x + r.w) &&
    decide (p.y ≥ r.y - r.h) && decide (p.y ≤ r.y + r.h)

/-- The method `Rect::intersects`. -/
def Rect.intersects (r other : Rect) : Bool :=
  !(decide (other.x - other.w > r.x + r.w) ||
    decide (other.x + other.w < r.x - r.w) ||
    decide (other.y - other.h > r.y + r.h) ||
    decide (other.y + other.h < r.y - r.h))

/-- The constant `Quadtree::CAPACIDAD`. -/
def CAPACIDAD : Nat := 4

/-- A node of `class Quadtree`.  `hoja` has `dividido = false` and no children,
`rama` has `dividido = true` and the children `noroeste`, `noreste`, `suroeste`, `sureste`. -/
inductive Quadtree where
  | hoja (boundary : Rect) (puntos : List Point)
  | rama (boundary : Rect) (puntos : List Point)
      (noroeste noreste suroeste sureste : Quadtree)
  deriving DecidableEq

namespace Quadtree

/-- The field `boundary`. -/
def boundary : Quadtree → Rect
  | hoja b _ => b
  | rama b _ _ _ _ _ => b

/-- The field `puntos` (the node's own vector). -/
def puntos : Quadtree → List Point
  | hoja _ ps => ps
  | rama _ ps _ _ _ _ => ps

/-- The field `dividido`. -/
def dividido : Quadtree → Bool
  | hoja _ _ => false
  | rama _ _ _ _ _ _ => true

end Quadtree

open Quadtree

/-- The four child pointers of a subdivided node, in the order the source tries them. -/
structure Hijos where
  noroeste : Quadtree
  noreste : Quadtree
  suroeste : Quadtree
  sureste : Quadtree
  deriving DecidableEq

/-- The chain `if (noroeste->insertar(p)) ...; if (noreste->insertar(p)) ...;` shared by
`subdividir` (loop body) and `insertar` (lines 95-104): the children are tried in order,
stopping at the first that returns true.  `ins` is the recursive call. -/
def insertarHijos (ins : Quadtree → Point → Option (Bool × Quadtree)) (hs : Hijos) (p : Point) :
    Option (Bool × Hijos) :=
  match ins hs.noroeste p with
  | none => none
  | some (true, c) => some (true, { hs with noroeste := c })
  | some (false, c1) =>
    match ins hs.noreste p with
    | none => none
    | some (true, c) => some (true, { hs with noroeste := c1, noreste := c })
    | some (false, c2) =>
      match ins hs.suroeste p with
      | none => none
      | some (true, c) => some (true, { hs with noroeste := c1, noreste := c2, suroeste := c })
      | some (false, c3) =>
        match ins hs.sureste p with
        | none => none
        | some (r, c4) => some (r, ⟨c1, c2, c3, c4⟩)

/-- The loop of `subdividir` over `puntos`: each stored point is offered to the children. -/
def redistribuir (ins : Quadtree → Point → Option (Bool × Quadtree)) :
    List Point → Hijos → Option Hijos
  | [], hs => some hs
  | p :: ps, hs =>
    match insertarHijos ins hs p with
    | none => none
    | some (_, hs1) => redistribuir ins ps hs1

/-- The four fresh children created by `subdividir` for a node with boundary `b`. -/
def hijosNuevos (b : Rect) : Hijos :=
  let x := b.x
  let y := b.y
  let w := b.w / 2
  let h := b.h / 2
  { noroeste := hoja ⟨x - w, y + h, w, h⟩ []
    noreste := hoja ⟨x + w, y + h, w, h⟩ []
    suroeste := hoja ⟨x - w, y - h, w, h⟩ []
    sureste := hoja ⟨x + w, y - h, w, h⟩ [] }

/-- The method `subdividir`, on a node with boundary `b` and own points `ps`: creates the
children, redistributes `ps` into them, clears the node's vector and sets `dividido`. -/
def subdividir (ins : Quadtree → Point → Option (Bool × Quadtree)) (b : Rect) (ps : List Point) :
    Option Quadtree :=
  match redistribuir ins ps (hijosNuevos b) with
  | none => none
  | some hs => some (rama b [] hs.noroeste hs.noreste hs.suroeste hs.sureste)

/-- The tail of `insertar` (lines 95-104): the chain over the four children of the node.
`insertar` reaches it only on a subdivided node; on an undivided node the four pointers
are null and the source would dereference them, which the embedding renders as `none`. -/
def insertarRama (ins : Quadtree → Point → Option (Bool × Quadtree)) (t : Quadtree) (p : Point) :
    Option (Bool × Quadtree) :=
  match t with
  | hoja _ _ => none
  | rama b ps nw ne sw se =>
    match insertarHijos ins ⟨nw, ne, sw, se⟩ p with
    | none => none
    | some (r, hs) => some (r, rama b ps hs.noroeste hs.noreste hs.suroeste hs.sureste)

/-- The method `insertar`.  The first argument bounds the recursion depth; `none` means the
budget was exhausted before the call returned. -/
def insertar : Nat → Quadtree → Point → Option (Bool × Quadtree)
  | 0, _, _ => none
  | fuel + 1, t, p =>
    if !t.boundary.contains p then some (false, t)
    else
      match t with
      | hoja b ps =>
        if ps.length < CAPACIDAD then some (true, hoja b (ps ++ [p]))
        else
          match subdividir (insertar fuel) b ps with
          | none => none
          | some t1 => insertarRama (insertar fuel) t1 p
      | rama _ _ _ _ _ _ => insertarRama (insertar fuel) t p

/-- The scan of `eliminar` over a leaf's vector (lines 114-122): erases the first stored
point with equal coordinates, or reports that there is none. -/
def borrarPrimero : List Point → Point → Option (List Point)
  | [], _ => none
  | q :: qs, p =>
    if q.x = p.x ∧ q.y = p.y then some qs
    else
      match borrarPrimero qs p with
      | none => none
      | some qs1 => some (q :: qs1)

/-- The merge step of `eliminar` (lines 139-169) on a node with boundary `b`, own points
`ps` and the current children. -/
def fusionar (b : Rect) (ps : List Point) (nw ne sw se : Quadtree) : Quadtree :=
  if !nw.dividido && !ne.dividido && !sw.dividido && !se.dividido then
    let total := nw.puntos.length + ne.puntos.length + sw.puntos.length + se.puntos.length
    if total ≤ CAPACIDAD then
      hoja b (ps ++ nw.puntos ++ ne.puntos ++ sw.puntos ++ se.puntos)
    else rama b ps nw ne sw se
  else rama b ps nw ne sw se

/-- The method `eliminar`: the returned tree is the node after the call. -/
def eliminar : Quadtree → Point → Bool × Quadtree
  | hoja b ps, p =>
    if !b.contains p then (false, hoja b ps)
    else
      match borrarPrimero ps p with
      | some ps1 => (true, hoja b ps1)
      | none => (false, hoja b ps)
  | rama b ps nw ne sw se, p =>
    if !b.contains p then (false, rama b ps nw ne sw se)
    else
      let r1 := eliminar nw p
      if r1.1 then (true, fusionar b ps r1.2 ne sw se)
      else
        let r2 := eliminar ne p
        if r2.1 then (true, fusionar b ps r1.2 r2.2 sw se)
        else
          let r3 := eliminar sw p
          if r3.1 then (true, fusionar b ps r1.2 r2.2 r3.2 se)
          else
            let r4 := eliminar se p
            if r4.1 then (true, fusionar b ps r1.2 r2.2 r3.2 r4.2)
            else (false, rama b ps r1.2 r2.2 r3.2 r4.2)

/-- The loop of `buscarEnRango` over the node's own vector (lines 180-186). -/
def filtrarEn (range : Rect) (ps : List Point) (encontrados : List Point) : List Point :=
  ps.foldl (fun acc p => if range.contains p then acc ++ [p] else acc) encontrados

/-- The method `buscarEnRango`; `encontrados` is the output vector passed by reference and
the result is its value after the call. -/
def buscarEnRango : Quadtree → Rect → List Point → List Point
  | hoja b ps, range, encontrados =>
    if !b.intersects range then encontrados
    else filtrarEn range ps encontrados
  | rama b ps nw ne sw se, range, encontrados =>
    if !b.intersects range then encontrados
    else
      let e0 := filtrarEn range ps encontrados
      let e1 := buscarEnRango nw range e0
      let e2 := buscarEnRango ne range e1
      let e3 := buscarEnRango sw range e2
      buscarEnRango se range e3

/-- The constructor `Quadtree(region)`: an undivided node without points. -/
def vacio (region : Rect) : Quadtree := hoja region []

/-! ## Specification-level notions -/

/-- All points stored in the tree in traversal order: a leaf's points in stored order,
an internal node's children in the order NW, NE, SW, SE. -/
def todos : Quadtree → List Point
  | hoja _ ps => ps
  | rama _ _ nw ne sw se => todos nw ++ todos ne ++ todos sw ++ todos se

/-- The multiset of the points stored in the tree. -/
def contenido (t : Quadtree) : Multiset Point := (todos t : Multiset Point)

/-- Index (0 = NW, 1 = NE, 2 = SW, 3 = SE) of the first child of a node with boundary `b`,
in the order the source tries them, whose boundary contains `q`; 4 when there is none. -/
def ruta (b : Rect) (q : Point) : Nat :=
  if (hijosNuevos b).noroeste.boundary.contains q then 0
  else if (hijosNuevos b).noreste.boundary.contains q then 1
  else if (hijosNuevos b).suroeste.boundary.contains q then 2
  else if (hijosNuevos b).sureste.boundary.contains q then 3
  else 4

/-- The structural invariant of the trees the operations build: a leaf holds at most
`CAPACIDAD` points, all inside its boundary; a subdivided node keeps no points of its own,
its children cover the four quadrants `subdividir` creates, and its subtree stores more
than `CAPACIDAD` points. -/
def Inv : Quadtree → Prop
  | hoja b ps => ps.length ≤ CAPACIDAD ∧ ∀ q ∈ ps, b.contains q = true
  | rama b ps nw ne sw se =>
    ps = [] ∧
    nw.boundary = (hijosNuevos b).noroeste.boundary ∧
    ne.boundary = (hijosNuevos b).noreste.boundary ∧
    sw.boundary = (hijosNuevos b).suroeste.boundary ∧
    se.boundary = (hijosNuevos b).sureste.boundary ∧
    Inv nw ∧ Inv ne ∧ Inv sw ∧ Inv se ∧
    CAPACIDAD < (todos nw ++ todos ne ++ todos sw ++ todos se).length

/-- Trees reachable from an empty root by completed `insertar` and `eliminar` calls. -/
inductive Alcanzable : Quadtree → Prop
  | inicial (region : Rect) : Alcanzable (vacio region)
  | trasInsertar (fuel : Nat) (t : Quadtree) (p : Point) (r : Bool) (t1 : Quadtree) :
      Alcanzable t → insertar fuel t p = some (r, t1) → Alcanzable t1
  | trasEliminar (t : Quadtree) (p : Point) : Alcanzable t → Alcanzable (eliminar t p).2

/-- What one completed call `insertar(p)` on a node `c` establishes, for the returned
value `r` and the node `c1` after the call. -/
structure InsPost (c : Quadtree) (p : Point) (r : Bool) (c1 : Quadtree) : Prop where
  ret : r = c.boundary.contains p
  marco : r = false → c1 = c
  borde : c1.boundary = c.boundary
  inv : Inv c1
  cont : r = true → contenido c1 = p ::ₘ contenido c

/-- Every leaf of the tree holds at most `CAPACIDAD` points. -/
def EnCapacidad : Quadtree → Prop
  | hoja _ ps => ps.length ≤ CAPACIDAD
  | rama _ _ nw ne sw se => EnCapacidad nw ∧ EnCapacidad ne ∧ EnCapacidad sw ∧ EnCapacidad se

/-- No subdivided node of the tree has four undivided children whose point counts sum to
at most `CAPACIDAD` (the condition under which `eliminar` merges). -/
def SinFusionPendiente : Quadtree → Prop
  | hoja _ _ => True
  | rama _ _ nw ne sw se =>
    ¬(nw.dividido = false ∧ ne.dividido = false ∧ sw.dividido = false ∧ se.dividido = false ∧
        nw.puntos.length + ne.puntos.length + sw.puntos.length + se.puntos.length ≤ CAPACIDAD) ∧
      SinFusionPendiente nw ∧ SinFusionPendiente ne ∧ SinFusionPendiente sw ∧
      SinFusionPendiente se

/-- A sequence of `insertar` calls on one tree, each with recursion budget `fuel`: the
returned values in call order and the final tree, or `none` when some call does not
complete within the budget. -/
def insertarTodos (fuel : Nat) : Quadtree → List Point → Option (List Bool × Quadtree)
  | t, [] => some ([], t)
  | t, p :: ps =>
    match insertar fuel t p with
    | none => none
    | some (r, t1) =>
      match insertarTodos fuel t1 ps with
      | none => none
      | some (rs, t2) => some (r :: rs, t2)

/-- The points of a sequence of calls whose call returned true. -/
def aceptados : List Point → List Bool → List Point
  | p :: ps, r :: rs => if r then p :: aceptados ps rs else aceptados ps rs
  | _, _ => []

/-- A sequence of `eliminar` calls on one tree: the final tree. -/
def eliminarTodos : Quadtree → List Point → Quadtree
  | t, [] => t
  | t, p :: ps => eliminarTodos (eliminar t p).2 ps

/-- The root rectangle of `main`. -/
def area : Rect := ⟨0, 0, 8, 8⟩

/-- The query rectangle of `main`. -/
def areaConsulta : Rect := ⟨0, 0, 1, 1⟩

/-- The points `main` inserts, in order. -/
def puntosMain : List Point :=
  [⟨1, 1⟩, ⟨2, 5⟩, ⟨-4, 3⟩, ⟨6, -2⟩, ⟨3, 3⟩, ⟨7, 6⟩, ⟨2, 3⟩, ⟨-2, -3⟩]

/-- The tree of `main` after its eight insertions. -/
def arbolMain : Quadtree :=
  rama area []
    (hoja ⟨-4, 4, 4, 4⟩ [⟨-4, 3⟩])
    (rama ⟨4, 4, 4, 4⟩ []
      (hoja ⟨2, 6, 2, 2⟩ [⟨2, 5⟩])
      (hoja ⟨6, 6, 2, 2⟩ [⟨7, 6⟩])
      (hoja ⟨2, 2, 2, 2⟩ [⟨1, 1⟩, ⟨3, 3⟩, ⟨2, 3⟩])
      (hoja ⟨6, 2, 2, 2⟩ []))
    (hoja ⟨-4, -4, 4, 4⟩ [⟨-2, -3⟩])
    (hoja ⟨4, -4, 4, 4⟩ [⟨6, -2⟩])

/-- The tree of `main` after its two deletions. -/
def arbolMainFinal : Quadtree :=
  rama area []
    (hoja ⟨-4, 4, 4, 4⟩ [⟨-4, 3⟩])
    (hoja ⟨4, 4, 4, 4⟩ [⟨2, 5⟩, ⟨1, 1⟩, ⟨2, 3⟩])
    (hoja ⟨-4, -4, 4, 4⟩ [⟨-2, -3⟩])
    (hoja ⟨4, -4, 4, 4⟩ [⟨6, -2⟩])

/-- What a call `eliminar(p)` on a node `t` establishes, for its result `res` (returned
value, node after the call). -/
structure ElimPost (t : Quadtree) (p : Point) (res : Bool × Quadtree) : Prop where
  ret : res.1 = true ↔ p ∈ todos t
  marco : res.1 = false → res.2 = t
  borde : res.2.boundary = t.boundary
  inv : Inv res.2
  cont : res.1 = true → contenido t = p ::ₘ contenido res.2

/-- What one completed pass of the chain over the four children establishes, for the
returned value `r` and the children `hs1` after the pass. -/
structure HijosPost (hs : Hijos) (p : Point) (r : Bool) (hs1 : Hijos) : Prop where
  ret : r = (hs.noroeste.boundary.contains p || hs.noreste.boundary.contains p ||
    hs.suroeste.boundary.contains p || hs.sureste.boundary.contains p)
  marco : r = false → hs1 = hs
  b1 : hs1.noroeste.boundary = hs.noroeste.boundary
  b2 : hs1.noreste.boundary = hs.noreste.boundary
  b3 : hs1.suroeste.boundary = hs.suroeste.boundary
  b4 : hs1.sureste.boundary = hs.sureste.boundary
  i1 : Inv hs1.noroeste
  i2 : Inv hs1.noreste
  i3 : Inv hs1.suroeste
  i4 : Inv hs1.sureste
  cont : r = true →
    contenido hs1.noroeste + contenido hs1.noreste + contenido hs1.suroeste +
        contenido hs1.sureste =
      p ::ₘ (contenido hs.noroeste + contenido hs.noreste + contenido hs.suroeste +
        contenido hs.sureste)


/-- Every point a subtree holds, the own vectors of subdivided nodes included. -/
def almacenados : Quadtree → List Point
  | hoja _ ps => ps
  | rama _ ps nw ne sw se =>
    ps ++ almacenados nw ++ almacenados ne ++ almacenados sw ++ almacenados se

/-- The nodes of a tree: the root and, below a subdivided node, the nodes of its children. -/
def nodos : Quadtree → List Quadtree
  | hoja b ps => [hoja b ps]
  | rama b ps nw ne sw se =>
    rama b ps nw ne sw se :: (nodos nw ++ nodos ne ++ nodos sw ++ nodos se)

/-- The point lists of the leaves of a tree, in traversal order. -/
def hojas : Quadtree → List (List Point)
  | hoja _ ps => [ps]
  | rama _ _ nw ne sw se => hojas nw ++ hojas ne ++ hojas sw ++ hojas se

/-- Canonical placement: below every subdivided node each stored point lies under the
first child, in the order NW, NE, SW, SE, whose boundary contains it. -/
def Canonico : Quadtree → Prop
  | hoja _ _ => True
  | rama _ _ nw ne sw se =>
    (∀ q ∈ todos nw, nw.boundary.contains q = true) ∧
    (∀ q ∈ todos ne, nw.boundary.contains q = false ∧ ne.boundary.contains q = true) ∧
    (∀ q ∈ todos sw, nw.boundary.contains q = false ∧ ne.boundary.contains q = false ∧
      sw.boundary.contains q = true) ∧
    (∀ q ∈ todos se, nw.boundary.contains q = false ∧ ne.boundary.contains q = false ∧
      sw.boundary.contains q = false ∧ se.boundary.contains q = true) ∧
    Canonico nw ∧ Canonico ne ∧ Canonico sw ∧ Canonico se

/-- The merge step as the specification words it, for a node with boundary `b`, own
points `ps` and children `c1 .. c4` after a successful child deletion: when all four are
leaves with combined count at most `CAPACIDAD` the node becomes a leaf holding the
concatenation of their lists, otherwise it stays subdivided with these children. -/
def fusionEspecificada (b : Rect) (ps : List Point) (c1 c2 c3 c4 : Quadtree) : Quadtree :=
  if c1.dividido = false ∧ c2.dividido = false ∧ c3.dividido = false ∧ c4.dividido = false ∧
      c1.puntos.length + c2.puntos.length + c3.puntos.length + c4.puntos.length ≤ CAPACIDAD
  then hoja b (c1.puntos ++ c2.puntos ++ c3.puntos ++ c4.puntos)
  else rama b ps c1 c2 c3 c4

/-- The subdivided node `rama b ps nw ne sw se` has become `t1` by a deletion of `p` that
succeeded in one child (the first, in the order NW, NE, SW, SE, in which it succeeds)
followed by the merge step as specified, on that child after the deletion and the other
three children unchanged. -/
def FusionTrasEliminar (b : Rect) (ps : List Point) (nw ne sw se : Quadtree) (p : Point)
    (t1 : Quadtree) : Prop :=
  ((eliminar nw p).1 = true ∧ t1 = fusionEspecificada b ps (eliminar nw p).2 ne sw se) ∨
    ((eliminar nw p).1 = false ∧ (eliminar ne p).1 = true ∧
      t1 = fusionEspecificada b ps nw (eliminar ne p).2 sw se) ∨
    ((eliminar nw p).1 = false ∧ (eliminar ne p).1 = false ∧ (eliminar sw p).1 = true ∧
      t1 = fusionEspecificada b ps nw ne (eliminar sw p).2 se) ∨
    ((eliminar nw p).1 = false ∧ (eliminar ne p).1 = false ∧ (eliminar sw p).1 = false ∧
      (eliminar se p).1 = true ∧ t1 = fusionEspecificada b ps nw ne sw (eliminar se p).2)

/-- The north-west child of the root of `arbolMain`. -/
def hijoNO : Quadtree := hoja ⟨-4, 4, 4, 4⟩ [⟨-4, 3⟩]

/-- The south-west child of the root of `arbolMain`. -/
def hijoSO : Quadtree := hoja ⟨-4, -4, 4, 4⟩ [⟨-2, -3⟩]

/-- The south-east child of the root of `arbolMain`. -/
def hijoSE : Quadtree := hoja ⟨4, -4, 4, 4⟩ [⟨6, -2⟩]

/-- The four children of the north-east child of the root of `arbolMain`. -/
def nietoNO : Quadtree := hoja ⟨2, 6, 2, 2⟩ [⟨2, 5⟩]

/-- See `nietoNO`. -/
def nietoNE : Quadtree := hoja ⟨6, 6, 2, 2⟩ [⟨7, 6⟩]

/-- See `nietoNO`. -/
def nietoSO : Quadtree := hoja ⟨2, 2, 2, 2⟩ [⟨1, 1⟩, ⟨3, 3⟩, ⟨2, 3⟩]

/-- See `nietoNO`. -/
def nietoSE : Quadtree := hoja ⟨6, 2, 2, 2⟩ []

/-- The north-east child of the root of `arbolMain`. -/
def hijoNE : Quadtree := rama ⟨4, 4, 4, 4⟩ [] nietoNO nietoNE nietoSO nietoSE

/-! ## The pointer-level representation

The same three operations on the representation the source really uses: every node carries
its flag `dividido` and four child pointers, each of which may be null, independently of the
flag.  Dereferencing a null pointer is an outcome of its own. -/

/-- The outcome of a call on the pointer-level representation. -/
inductive Salida (α : Type) where
  /-- The call returned. -/
  | ok (a : α)
  /-- The recursion budget was exhausted before the call returned. -/
  | agotado
  /-- A null child pointer was dereferenced. -/
  | nulo
  deriving DecidableEq

/-- The value of a `Quadtree*`: null, or a node with the fields `boundary`, `puntos`,
`dividido` and the four child pointers. -/
inductive Puntero where
  | nulo
  | nodo (boundary : Rect) (puntos : List Point) (dividido : Bool)
      (noroeste noreste suroeste sureste : Puntero)
  deriving DecidableEq

/-- The four child pointers of a node. -/
structure HijosP where
  noroeste : Puntero
  noreste : Puntero
  suroeste : Puntero
  sureste : Puntero
  deriving DecidableEq

/-- The expression `new Quadtree(region)`: an undivided node with null children. -/
def nuevo (region : Rect) : Puntero :=
  Puntero.nodo region [] false Puntero.nulo Puntero.nulo Puntero.nulo Puntero.nulo

/-- The children chain of `subdividir` and `insertar` on pointers. -/
def insertarHijosP (ins : Puntero → Point → Salida (Bool × Puntero)) (hs : HijosP) (p : Point) :
    Salida (Bool × HijosP) :=
  match ins hs.noroeste p with
  | Salida.agotado => Salida.agotado
  | Salida.nulo => Salida.nulo
  | Salida.ok (true, c) => Salida.ok (true, { hs with noroeste := c })
  | Salida.ok (false, c1) =>
    match ins hs.noreste p with
    | Salida.agotado => Salida.agotado
    | Salida.nulo => Salida.nulo
    | Salida.ok (true, c) => Salida.ok (true, { hs with noroeste := c1, noreste := c })
    | Salida.ok (false, c2) =>
      match ins hs.suroeste p with
      | Salida.agotado => Salida.agotado
      | Salida.nulo => Salida.nulo
      | Salida.ok (true, c) =>
        Salida.ok (true, { hs with noroeste := c1, noreste := c2, suroeste := c })
      | Salida.ok (false, c3) =>
        match ins hs.sureste p with
        | Salida.agotado => Salida.agotado
        | Salida.nulo => Salida.nulo
        | Salida.ok (r, c4) => Salida.ok (r, ⟨c1, c2, c3, c4⟩)

/-- The loop of `subdividir` on pointers. -/
def redistribuirP (ins : Puntero → Point → Salida (Bool × Puntero)) :
    List Point → HijosP → Salida HijosP
  | [], hs => Salida.ok hs
  | p :: ps, hs =>
    match insertarHijosP ins hs p with
    | Salida.agotado => Salida.agotado
    | Salida.nulo => Salida.nulo
    | Salida.ok (_, hs1) => redistribuirP ins ps hs1

/-- The four `new Quadtree(...)` of `subdividir`. -/
def hijosNuevosP (b : Rect) : HijosP :=
  let x := b.x
  let y := b.y
  let w := b.w / 2
  let h := b.h / 2
  { noroeste := nuevo ⟨x - w, y + h, w, h⟩
    noreste := nuevo ⟨x + w, y + h, w, h⟩
    suroeste := nuevo ⟨x - w, y - h, w, h⟩
    sureste := nuevo ⟨x + w, y - h, w, h⟩ }

/-- Lines 95-104 of `insertar` on a node with fields `b`, `ps`, `d` and child pointers
`hs`: the chain over the children and the node afterwards. -/
def cadenaP (ins : Puntero → Point → Salida (Bool × Puntero)) (b : Rect) (ps : List Point)
    (d : Bool) (hs : HijosP) (p : Point) : Salida (Bool × Puntero) :=
  match insertarHijosP ins hs p with
  | Salida.agotado => Salida.agotado
  | Salida.nulo => Salida.nulo
  | Salida.ok (r, hs1) =>
    Salida.ok (r, Puntero.nodo b ps d hs1.noroeste hs1.noreste hs1.suroeste hs1.sureste)

/-- The method `insertar` called through a pointer.  `subdividir` overwrites the four child
pointers, sets `dividido` and clears `puntos`. -/
def insertarP : Nat → Puntero → Point → Salida (Bool × Puntero)
  | _, Puntero.nulo, _ => Salida.nulo
  | 0, Puntero.nodo _ _ _ _ _ _ _, _ => Salida.agotado
  | fuel + 1, Puntero.nodo b ps d nw ne sw se, p =>
    if !b.contains p then Salida.ok (false, Puntero.nodo b ps d nw ne sw se)
    else if !d then
      if ps.length < CAPACIDAD then Salida.ok (true, Puntero.nodo b (ps ++ [p]) d nw ne sw se)
      else
        match redistribuirP (insertarP fuel) ps (hijosNuevosP b) with
        | Salida.agotado => Salida.agotado
        | Salida.nulo => Salida.nulo
        | Salida.ok hs => cadenaP (insertarP fuel) b [] true hs p
    else cadenaP (insertarP fuel) b ps d ⟨nw, ne, sw, se⟩ p

/-- The merge step of `eliminar` on pointers (lines 139-169), with the short-circuit
evaluation of the condition on the children's flags: the node afterwards. -/
def fusionarP (b : Rect) (ps : List Point) (d : Bool) (nw ne sw se : Puntero) :
    Salida Puntero :=
  match nw with
  | Puntero.nulo => Salida.nulo
  | Puntero.nodo _ p1 d1 _ _ _ _ =>
    if d1 then Salida.ok (Puntero.nodo b ps d nw ne sw se)
    else
      match ne with
      | Puntero.nulo => Salida.nulo
      | Puntero.nodo _ p2 d2 _ _ _ _ =>
        if d2 then Salida.ok (Puntero.nodo b ps d nw ne sw se)
        else
          match sw with
          | Puntero.nulo => Salida.nulo
          | Puntero.nodo _ p3 d3 _ _ _ _ =>
            if d3 then Salida.ok (Puntero.nodo b ps d nw ne sw se)
            else
              match se with
              | Puntero.nulo => Salida.nulo
              | Puntero.nodo _ p4 d4 _ _ _ _ =>
                if d4 then Salida.ok (Puntero.nodo b ps d nw ne sw se)
                else if p1.length + p2.length + p3.length + p4.length ≤ CAPACIDAD then
                  Salida.ok (Puntero.nodo b (ps ++ p1 ++ p2 ++ p3 ++ p4) false
                    Puntero.nulo Puntero.nulo Puntero.nulo Puntero.nulo)
                else Salida.ok (Puntero.nodo b ps d nw ne sw se)

/-- The tail of `eliminar` after a successful child deletion: merge step, then `return true`. -/
def trasBorrarP (b : Rect) (ps : List Point) (d : Bool) (nw ne sw se : Puntero) :
    Salida (Bool × Puntero) :=
  match fusionarP b ps d nw ne sw se with
  | Salida.agotado => Salida.agotado
  | Salida.nulo => Salida.nulo
  | Salida.ok c => Salida.ok (true, c)

/-- The method `eliminar` called through a pointer. -/
def eliminarP : Puntero → Point → Salida (Bool × Puntero)
  | Puntero.nulo, _ => Salida.nulo
  | Puntero.nodo b ps d nw ne sw se, p =>
    if !b.contains p then Salida.ok (false, Puntero.nodo b ps d nw ne sw se)
    else if !d then
      match borrarPrimero ps p with
      | some ps1 => Salida.ok (true, Puntero.nodo b ps1 d nw ne sw se)
      | none => Salida.ok (false, Puntero.nodo b ps d nw ne sw se)
    else
      match eliminarP nw p with
      | Salida.agotado => Salida.agotado
      | Salida.nulo => Salida.nulo
      | Salida.ok (true, c1) => trasBorrarP b ps d c1 ne sw se
      | Salida.ok (false, c1) =>
        match eliminarP ne p with
        | Salida.agotado => Salida.agotado
        | Salida.nulo => Salida.nulo
        | Salida.ok (true, c2) => trasBorrarP b ps d c1 c2 sw se
        | Salida.ok (false, c2) =>
          match eliminarP sw p with
          | Salida.agotado => Salida.agotado
          | Salida.nulo => Salida.nulo
          | Salida.ok (true, c3) => trasBorrarP b ps d c1 c2 c3 se
          | Salida.ok (false, c3) =>
            match eliminarP se p with
            | Salida.agotado => Salida.agotado
            | Salida.nulo => Salida.nulo
            | Salida.ok (true, c4) => trasBorrarP b ps d c1 c2 c3 c4
            | Salida.ok (false, c4) => Salida.ok (false, Puntero.nodo b ps d c1 c2 c3 c4)

/-- The method `buscarEnRango` called through a pointer. -/
def buscarEnRangoP : Puntero → Rect → List Point → Salida (List Point)
  | Puntero.nulo, _, _ => Salida.nulo
  | Puntero.nodo b ps d nw ne sw se, range, encontrados =>
    if !b.intersects range then Salida.ok encontrados
    else if d then
      match buscarEnRangoP nw range (filtrarEn range ps encontrados) with
      | Salida.agotado => Salida.agotado
      | Salida.nulo => Salida.nulo
      | Salida.ok e1 =>
        match buscarEnRangoP ne range e1 with
        | Salida.agotado => Salida.agotado
        | Salida.nulo => Salida.nulo
        | Salida.ok e2 =>
          match buscarEnRangoP sw range e2 with
          | Salida.agotado => Salida.agotado
          | Salida.nulo => Salida.nulo
          | Salida.ok e3 => buscarEnRangoP se range e3
    else Salida.ok (filtrarEn range ps encontrados)

/-- Pointer-level states reachable from `Quadtree qt(region)` by completed `insertar` and
`eliminar` calls. -/
inductive AlcanzableP : Puntero → Prop
  | inicial (region : Rect) : AlcanzableP (nuevo region)
  | trasInsertar (fuel : Nat) (c : Puntero) (p : Point) (r : Bool) (c1 : Puntero) :
      AlcanzableP c → insertarP fuel c p = Salida.ok (r, c1) → AlcanzableP c1
  | trasEliminar (c : Puntero) (p : Point) (r : Bool) (c1 : Puntero) :
      AlcanzableP c → eliminarP c p = Salida.ok (r, c1) → AlcanzableP c1

/-- Invariant I1 on the pointer-level representation: a node has either `dividido = false`
and four null child pointers, or `dividido = true`, an empty own point list and four
children that are nodes satisfying the same. -/
def I1 : Puntero → Prop
  | Puntero.nulo => False
  | Puntero.nodo _ ps d nw ne sw se =>
    (d = false ∧ nw = Puntero.nulo ∧ ne = Puntero.nulo ∧ sw = Puntero.nulo ∧
        se = Puntero.nulo) ∨
      (d = true ∧ ps = [] ∧ I1 nw ∧ I1 ne ∧ I1 sw ∧ I1 se)

/-- The pointer-level representation of a tree of the embedding. -/
def rep : Quadtree → Puntero
  | hoja b ps => Puntero.nodo b ps false Puntero.nulo Puntero.nulo Puntero.nulo Puntero.nulo
  | rama b ps nw ne sw se => Puntero.nodo b ps true (rep nw) (rep ne) (rep sw) (rep se)

/-- The pointer-level representation of four children. -/
def repH (hs : Hijos) : HijosP :=
  ⟨rep hs.noroeste, rep hs.noreste, rep hs.suroeste, rep hs.sureste⟩

/-- The pointer-level outcome that corresponds to a result of the embedding of `insertar`. -/
def aSalida : Option (Bool × Quadtree) → Salida (Bool × Puntero)
  | none => Salida.agotado
  | some (r, t) => Salida.ok (r, rep t)

/-! ## The operations on IEEE doubles

The fields of `Point` and `Rect` are `double` in the source.  Every finite double is a
rational number, so the same types carry the double-precision model: the arithmetic of
`contains` and `subdividir` is the exact operation followed by rounding to the nearest
binary64 value, ties to even (the IEEE 754 default), and comparisons are exact. -/

/-- The rational `2 ^ e`. -/
def pot2 (e : Int) : ℚ :=
  match e with
  | Int.ofNat n => ((2 ^ n : Nat) : ℚ)
  | Int.negSucc n => 1 / ((2 ^ (n + 1) : Nat) : ℚ)

/-- Halving `n` until it is at most 1, at most `f` times: the number of halvings. -/
def cuentaMitades : Nat → Nat → Nat
  | 0, _ => 0
  | f + 1, n => if n ≤ 1 then 0 else cuentaMitades f (n / 2) + 1

/-- The binary logarithm `⌊log₂ n⌋` of a positive natural number. -/
def logaritmo2 (n : Nat) : Nat := cuentaMitades n n

/-- The binary exponent `⌊log₂ (n / d)⌋` of a positive rational `n / d`. -/
def exponente (n d : Nat) : Int :=
  let k : Int := (logaritmo2 n : Int) - (logaritmo2 d : Int)
  if (n : ℚ) / (d : ℚ) < pot2 k then k - 1 else k

/-- The integer nearest to a non-negative rational, ties to the even one. -/
def enteroCercano (a : ℚ) : Nat :=
  let f : Nat := a.num.toNat / a.den
  let r : ℚ := a - (f : ℚ)
  if r < 1 / 2 then f
  else if 1 / 2 < r then f + 1
  else if f % 2 = 0 then f
  else f + 1

/-- Rounding of an exact result to binary64, round-to-nearest ties-to-even: 53 significant
bits, least exponent `-1074` (subnormals, underflow to zero).  The exponent is not bounded
above, so results of magnitude `2 ^ 1024` and more, which overflow in binary64, are outside
the model. -/
def redondear (q : ℚ) : ℚ :=
  if q = 0 then 0
  else
    let a : ℚ := if q < 0 then -q else q
    let u : Int := max (exponente a.num.toNat a.den - 52) (-1074)
    let m : ℚ := (enteroCercano (a / pot2 u) : ℚ) * pot2 u
    if q < 0 then -m else m

/-- The method `Rect::contains` when the result of every addition and subtraction is
rounded by `fl`. -/
def Rect.containsR (fl : ℚ → ℚ) (r : Rect) (p : Point) : Bool :=
  decide (p.x ≥ fl (r.x - r.w)) && decide (p.x ≤ fl (r.x + r.w)) &&
    decide (p.y ≥ fl (r.y - r.h)) && decide (p.y ≤ fl (r.y + r.h))

/-- The four fresh children of `subdividir` when `boundary.w / 2`, `boundary.h / 2` and the
four centres are rounded by `fl`. -/
def hijosNuevosR (fl : ℚ → ℚ) (b : Rect) : Hijos :=
  let x := b.x
  let y := b.y
  let w := fl (b.w / 2)
  let h := fl (b.h / 2)
  { noroeste := hoja ⟨fl (x - w), fl (y + h), w, h⟩ []
    noreste := hoja ⟨fl (x + w), fl (y + h), w, h⟩ []
    suroeste := hoja ⟨fl (x - w), fl (y - h), w, h⟩ []
    sureste := hoja ⟨fl (x + w), fl (y - h), w, h⟩ [] }

/-- The method `subdividir` with arithmetic rounded by `fl`. -/
def subdividirR (fl : ℚ → ℚ) (ins : Quadtree → Point → Option (Bool × Quadtree)) (b : Rect)
    (ps : List Point) : Option Quadtree :=
  match redistribuir ins ps (hijosNuevosR fl b) with
  | none => none
  | some hs => some (rama b [] hs.noroeste hs.noreste hs.suroeste hs.sureste)

/-- The method `insertar` with arithmetic rounded by `fl`, with a recursion budget as in
`insertar`; with `fl` the identity it is `insertar`. -/
def insertarR (fl : ℚ → ℚ) : Nat → Quadtree → Point → Option (Bool × Quadtree)
  | 0, _, _ => none
  | fuel + 1, t, p =>
    if !t.boundary.containsR fl p then some (false, t)
    else
      match t with
      | hoja b ps =>
        if ps.length < CAPACIDAD then some (true, hoja b (ps ++ [p]))
        else
          match subdividirR fl (insertarR fl fuel) b ps with
          | none => none
          | some t1 => insertarRama (insertarR fl fuel) t1 p
      | rama _ _ _ _ _ _ => insertarRama (insertarR fl fuel) t p

/-- The method `Rect::contains` on doubles. -/
def Rect.containsD (r : Rect) (p : Point) : Bool := r.containsR redondear p

/-- The method `insertar` on doubles. -/
def insertarD (fuel : Nat) (t : Quadtree) (p : Point) : Option (Bool × Quadtree) :=
  insertarR redondear fuel t p

/-- A sequence of `insertar` calls on doubles, as `insertarTodos`. -/
def insertarTodosD (fuel : Nat) : Quadtree → List Point → Option (List Bool × Quadtree)
  | t, [] => some ([], t)
  | t, p :: ps =>
    match insertarD fuel t p with
    | none => none
    | some (r, t1) =>
      match insertarTodosD fuel t1 ps with
      | none => none
      | some (rs, t2) => some (r :: rs, t2)

/-- The double `2 ^ (-52)`, the distance from 1 to the next double. -/
def eps : ℚ := pot2 (-52)

/-- A root rectangle over doubles: centre `(1, 0)`, half-extents `(2 ^ (-52), 8)`. -/
def rectDoble : Rect := ⟨1, 0, eps, 8⟩

/-- The point on the right edge of `rectDoble` at height 1. -/
def puntoBorde : Point := ⟨1 + eps, 1⟩

/-- The leaf over `rectDoble` holding four copies of `puntoBorde`. -/
def hojaBorde : Quadtree := hoja rectDoble [puntoBorde, puntoBorde, puntoBorde, puntoBorde]

/-- The children of the root over `rectDoble` after the insertions of `(1, 1)`, `(1, 2)`,
`(1, 3)`, `(1, 5)`, `(1, -1)` on doubles: north-west. -/
def dobleNO : Quadtree := hoja ⟨1 - eps / 2, 4, eps / 2, 4⟩ [⟨1, 1⟩, ⟨1, 2⟩, ⟨1, 3⟩, ⟨1, 5⟩]

/-- See `dobleNO`: north-east. -/
def dobleNE : Quadtree := hoja ⟨1, 4, eps / 2, 4⟩ []

/-- See `dobleNO`: south-west. -/
def dobleSO : Quadtree := hoja ⟨1 - eps / 2, -4, eps / 2, 4⟩ [⟨1, -1⟩]

/-- See `dobleNO`: south-east. -/
def dobleSE : Quadtree := hoja ⟨1, -4, eps / 2, 4⟩ []

/-- The centre of the boundary of `dobleNO` at height 0: the double just below 1. -/
def puntoLinea : Point := ⟨1 - eps / 2, 0⟩

/-- The node `dobleNO` after the call `insertar(puntoLinea)` on doubles: subdivided, and
without the point. -/
def dobleNOTras : Quadtree :=
  rama ⟨1 - eps / 2, 4, eps / 2, 4⟩ []
    (hoja ⟨1 - eps, 6, eps / 4, 2⟩ [])
    (hoja ⟨1, 6, eps / 4, 2⟩ [⟨1, 5⟩])
    (hoja ⟨1 - eps, 2, eps / 4, 2⟩ [])
    (hoja ⟨1, 2, eps / 4, 2⟩ [⟨1, 1⟩, ⟨1, 2⟩, ⟨1, 3⟩])

/-! ## Geometry -/

theorem contains_iff (r : Rect) (p : Point) :
    r.contains p = true ↔
      r.x - r.w ≤ p.x ∧ p.x ≤ r.x + r.w ∧ r.y - r.h ≤ p.y ∧ p.y ≤ r.y + r.h := by
  simp [Rect.contains, and_assoc]

theorem intersects_iff (a b : Rect) :
    a.intersects b = true ↔
      b.x - b.w ≤ a.x + a.w ∧ a.x - a.w ≤ b.x + b.w ∧
        b.y - b.h ≤ a.y + a.h ∧ a.y - a.h ≤ b.y + b.h := by
  simp [Rect.intersects, and_assoc]

/-- A point inside two rectangles makes them intersect (no sign condition needed). -/
theorem intersects_of_contains (a b : Rect) (p : Point)
    (ha : a.contains p = true) (hb : b.contains p = true) : a.intersects b = true := by
  rw [contains_iff] at ha hb
  rw [intersects_iff]
  refine ⟨?_, ?_, ?_, ?_⟩ <;> linarith [ha.1, ha.2.1, ha.2.2.1, ha.2.2.2, hb.1, hb.2.1, hb.2.2.1, hb.2.2.2]

/-- C10. For rectangles with non-negative half-extents, `a.intersects(b)` holds exactly
when some point lies in both closed rectangles; touching edges or corners count. -/
theorem intersects_iff_exists_common_point (a b : Rect)
    (haw : 0 ≤ a.w) (hah : 0 ≤ a.h) (hbw : 0 ≤ b.w) (hbh : 0 ≤ b.h) :
    a.intersects b = true ↔ ∃ p : Point, a.contains p = true ∧ b.contains p = true := by
  constructor
  · intro h
    rw [intersects_iff] at h
    obtain ⟨h1, h2, h3, h4⟩ := h
    refine ⟨⟨max (a.x - a.w) (b.x - b.w), max (a.y - a.h) (b.y - b.h)⟩, ?_, ?_⟩
    · rw [contains_iff]
      refine ⟨le_max_left _ _, max_le (by linarith) h1, le_max_left _ _, max_le (by linarith) h3⟩
    · rw [contains_iff]
      refine ⟨le_max_right _ _, max_le h2 (by linarith), le_max_right _ _, max_le h4 (by linarith)⟩
  · rintro ⟨p, ha, hb⟩
    exact intersects_of_contains a b p ha hb

/-- C10 at two squares that touch only at the corner `(1, 1)`. -/
theorem intersects_iff_exists_common_point_witness :
    (Rect.intersects ⟨0, 0, 1, 1⟩ ⟨2, 2, 1, 1⟩ = true ↔
      ∃ p : Point, Rect.contains ⟨0, 0, 1, 1⟩ p = true ∧ Rect.contains ⟨2, 2, 1, 1⟩ p = true) ∧
    Rect.intersects ⟨0, 0, 1, 1⟩ ⟨2, 2, 1, 1⟩ = true :=
  ⟨intersects_iff_exists_common_point ⟨0, 0, 1, 1⟩ ⟨2, 2, 1, 1⟩
    (by decide!) (by decide!) (by decide!) (by decide!), by decide!⟩


@[simp] theorem boundary_hoja (b : Rect) (ps : List Point) : (hoja b ps).boundary = b := rfl
@[simp] theorem boundary_rama (b : Rect) (ps : List Point) (nw ne sw se : Quadtree) :
    (rama b ps nw ne sw se).boundary = b := rfl

/-- A point inside a node's boundary lies in one of the four quadrants of `subdividir`. -/
theorem ruta_lt_of_contains (b : Rect) (q : Point) (h : b.contains q = true) : ruta b q < 4 := by
  rw [contains_iff] at h
  obtain ⟨h1, h2, h3, h4⟩ := h
  unfold ruta
  split_ifs with c1 c2 c3 c4
  · norm_num
  · norm_num
  · norm_num
  · norm_num
  · exfalso
    simp only [hijosNuevos, boundary_hoja, contains_iff, not_and, not_le] at c1 c2 c3 c4
    rcases le_total q.x b.x with hx | hx <;> rcases le_total q.y b.y with hy | hy
    · have := c3 (by linarith) (by linarith) (by linarith); linarith
    · have := c1 (by linarith) (by linarith) (by linarith); linarith
    · have := c4 (by linarith) (by linarith) (by linarith); linarith
    · have := c2 (by linarith) (by linarith) (by linarith); linarith

theorem contains_of_noroeste (b : Rect) (q : Point)
    (h : (hijosNuevos b).noroeste.boundary.contains q = true) : b.contains q = true := by
  simp only [hijosNuevos, boundary_hoja, contains_iff] at h ⊢
  obtain ⟨h1, h2, h3, h4⟩ := h
  refine ⟨?_, ?_, ?_, ?_⟩ <;> linarith

theorem contains_of_noreste (b : Rect) (q : Point)
    (h : (hijosNuevos b).noreste.boundary.contains q = true) : b.contains q = true := by
  simp only [hijosNuevos, boundary_hoja, contains_iff] at h ⊢
  obtain ⟨h1, h2, h3, h4⟩ := h
  refine ⟨?_, ?_, ?_, ?_⟩ <;> linarith

theorem contains_of_suroeste (b : Rect) (q : Point)
    (h : (hijosNuevos b).suroeste.boundary.contains q = true) : b.contains q = true := by
  simp only [hijosNuevos, boundary_hoja, contains_iff] at h ⊢
  obtain ⟨h1, h2, h3, h4⟩ := h
  refine ⟨?_, ?_, ?_, ?_⟩ <;> linarith

theorem contains_of_sureste (b : Rect) (q : Point)
    (h : (hijosNuevos b).sureste.boundary.contains q = true) : b.contains q = true := by
  simp only [hijosNuevos, boundary_hoja, contains_iff] at h ⊢
  obtain ⟨h1, h2, h3, h4⟩ := h
  refine ⟨?_, ?_, ?_, ?_⟩ <;> linarith


/-! ## `insertar` on a leaf with room, and `subdividir` -/

theorem insertar_hoja_lt (n : Nat) (b : Rect) (l : List Point) (q : Point)
    (hl : l.length < CAPACIDAD) :
    insertar (n + 1) (hoja b l) q =
      if b.contains q then some (true, hoja b (l ++ [q])) else some (false, hoja b l) := by
  cases hc : b.contains q <;> simp [insertar, hc, hl]

theorem insertarHijos_hojas (n : Nat) (b : Rect) (l1 l2 l3 l4 : List Point) (q : Point)
    (h1 : l1.length < CAPACIDAD) (h2 : l2.length < CAPACIDAD)
    (h3 : l3.length < CAPACIDAD) (h4 : l4.length < CAPACIDAD) :
    insertarHijos (insertar (n + 1))
        ⟨hoja (hijosNuevos b).noroeste.boundary l1, hoja (hijosNuevos b).noreste.boundary l2,
          hoja (hijosNuevos b).suroeste.boundary l3, hoja (hijosNuevos b).sureste.boundary l4⟩ q =
      some (decide (ruta b q < 4),
        ⟨hoja (hijosNuevos b).noroeste.boundary (l1 ++ [q].filter (fun q => ruta b q = 0)),
          hoja (hijosNuevos b).noreste.boundary (l2 ++ [q].filter (fun q => ruta b q = 1)),
          hoja (hijosNuevos b).suroeste.boundary (l3 ++ [q].filter (fun q => ruta b q = 2)),
          hoja (hijosNuevos b).sureste.boundary (l4 ++ [q].filter (fun q => ruta b q = 3))⟩) := by
  unfold insertarHijos
  simp only [insertar_hoja_lt, h1, h2, h3, h4]
  unfold ruta
  cases c1 : (hijosNuevos b).noroeste.boundary.contains q <;>
    cases c2 : (hijosNuevos b).noreste.boundary.contains q <;>
    cases c3 : (hijosNuevos b).suroeste.boundary.contains q <;>
    cases c4 : (hijosNuevos b).sureste.boundary.contains q <;>
    simp [c1, c2, c3, c4]

theorem redistribuir_hojas (n : Nat) (b : Rect) :
    ∀ (ps l1 l2 l3 l4 : List Point),
      l1.length + l2.length + l3.length + l4.length + ps.length ≤ CAPACIDAD →
      redistribuir (insertar (n + 1)) ps
          ⟨hoja (hijosNuevos b).noroeste.boundary l1, hoja (hijosNuevos b).noreste.boundary l2,
            hoja (hijosNuevos b).suroeste.boundary l3, hoja (hijosNuevos b).sureste.boundary l4⟩ =
        some
          ⟨hoja (hijosNuevos b).noroeste.boundary (l1 ++ ps.filter (fun q => ruta b q = 0)),
            hoja (hijosNuevos b).noreste.boundary (l2 ++ ps.filter (fun q => ruta b q = 1)),
            hoja (hijosNuevos b).suroeste.boundary (l3 ++ ps.filter (fun q => ruta b q = 2)),
            hoja (hijosNuevos b).sureste.boundary (l4 ++ ps.filter (fun q => ruta b q = 3))⟩ := by
  intro ps
  induction ps with
  | nil => intro l1 l2 l3 l4 _; simp [redistribuir]
  | cons q ps ih =>
    intro l1 l2 l3 l4 hlen
    simp only [List.length_cons] at hlen
    have h1 : l1.length < CAPACIDAD := by omega
    have h2 : l2.length < CAPACIDAD := by omega
    have h3 : l3.length < CAPACIDAD := by omega
    have h4 : l4.length < CAPACIDAD := by omega
    unfold redistribuir
    rw [insertarHijos_hojas n b l1 l2 l3 l4 q h1 h2 h3 h4]
    simp only
    rw [ih]
    · have e : ∀ (k : Nat) (l : List Point),
          l ++ List.filter (fun q => decide (ruta b q = k)) [q] ++
              List.filter (fun q => decide (ruta b q = k)) ps =
            l ++ List.filter (fun q => decide (ruta b q = k)) (q :: ps) := by
        intro k l
        rw [List.append_assoc, ← List.filter_append]
        rfl
      simp only [e]
    · have e : ∀ (k : Nat), (List.filter (fun q => decide (ruta b q = k)) [q]).length ≤ 1 := by
        intro k
        exact (List.length_filter_le _ _).trans (by simp)
      have s : (List.filter (fun q => decide (ruta b q = 0)) [q]).length +
          (List.filter (fun q => decide (ruta b q = 1)) [q]).length +
          (List.filter (fun q => decide (ruta b q = 2)) [q]).length +
          (List.filter (fun q => decide (ruta b q = 3)) [q]).length ≤ 1 := by
        by_cases r0 : ruta b q = 0
        · simp [r0]
        · by_cases r1 : ruta b q = 1
          · simp [r1]
          · by_cases r2 : ruta b q = 2
            · simp [r2]
            · by_cases r3 : ruta b q = 3
              · simp [r3]
              · simp [r0, r1, r2, r3]
      simp only [List.length_append]
      omega

/-- On a leaf within capacity `subdividir` completes (given any positive budget) and sends
each stored point to the first child, in the order NW, NE, SW, SE, that contains it. -/
theorem subdividir_eq (n : Nat) (b : Rect) (ps : List Point) (hlen : ps.length ≤ CAPACIDAD) :
    subdividir (insertar (n + 1)) b ps =
      some (rama b []
        (hoja (hijosNuevos b).noroeste.boundary (ps.filter (fun q => ruta b q = 0)))
        (hoja (hijosNuevos b).noreste.boundary (ps.filter (fun q => ruta b q = 1)))
        (hoja (hijosNuevos b).suroeste.boundary (ps.filter (fun q => ruta b q = 2)))
        (hoja (hijosNuevos b).sureste.boundary (ps.filter (fun q => ruta b q = 3)))) := by
  have h := redistribuir_hojas n b ps [] [] [] [] (by simpa using hlen)
  have e : hijosNuevos b =
      ⟨hoja (hijosNuevos b).noroeste.boundary [], hoja (hijosNuevos b).noreste.boundary [],
        hoja (hijosNuevos b).suroeste.boundary [], hoja (hijosNuevos b).sureste.boundary []⟩ := rfl
  unfold subdividir
  rw [e, h]
  simp

/-- With an exhausted budget `subdividir` of a non-empty leaf does not complete. -/
theorem subdividir_cero (b : Rect) (ps : List Point) (h : ps ≠ []) :
    subdividir (insertar 0) b ps = none := by
  cases ps with
  | nil => exact absurd rfl h
  | cons q ps => simp [subdividir, redistribuir, insertarHijos, insertar]


/-! ## Stored points -/

@[simp] theorem contenido_hoja (b : Rect) (ps : List Point) :
    contenido (hoja b ps) = (ps : Multiset Point) := rfl

@[simp] theorem contenido_rama (b : Rect) (ps : List Point) (nw ne sw se : Quadtree) :
    contenido (rama b ps nw ne sw se) =
      contenido nw + contenido ne + contenido sw + contenido se := by
  simp [contenido, todos]

theorem mem_todos_iff (t : Quadtree) (q : Point) : q ∈ todos t ↔ q ∈ contenido t := by
  simp [contenido]

theorem length_todos (t : Quadtree) : (todos t).length = Multiset.card (contenido t) := by
  simp [contenido]

/-- The four lists `subdividir` hands to the children partition the redistributed points,
provided each of them lies in some quadrant. -/
theorem particion_ruta (b : Rect) (ps : List Point) (h : ∀ q ∈ ps, ruta b q < 4) :
    ((ps.filter (fun q => ruta b q = 0) : List Point) : Multiset Point) +
        ((ps.filter (fun q => ruta b q = 1) : List Point) : Multiset Point) +
        ((ps.filter (fun q => ruta b q = 2) : List Point) : Multiset Point) +
        ((ps.filter (fun q => ruta b q = 3) : List Point) : Multiset Point) =
      (ps : Multiset Point) := by
  induction ps with
  | nil => simp
  | cons q ps ih =>
    have hq := h q (List.mem_cons_self _ _)
    have ih1 := ih (fun x hx => h x (List.mem_cons_of_mem _ hx))
    rw [← Multiset.cons_coe q ps, ← ih1]
    have : ruta b q = 0 ∨ ruta b q = 1 ∨ ruta b q = 2 ∨ ruta b q = 3 := by omega
    rcases this with r | r | r | r <;>
      simp [List.filter_cons, r, ← Multiset.cons_coe, Multiset.cons_add, Multiset.add_cons]

/-! ## The chain over the four children -/

theorem insertarHijos_post (ins : Quadtree → Point → Option (Bool × Quadtree))
    (hs : Hijos) (p : Point) (r : Bool) (hs1 : Hijos)
    (i1 : Inv hs.noroeste) (i2 : Inv hs.noreste) (i3 : Inv hs.suroeste) (i4 : Inv hs.sureste)
    (h1 : ∀ r c, ins hs.noroeste p = some (r, c) → InsPost hs.noroeste p r c)
    (h2 : ∀ r c, ins hs.noreste p = some (r, c) → InsPost hs.noreste p r c)
    (h3 : ∀ r c, ins hs.suroeste p = some (r, c) → InsPost hs.suroeste p r c)
    (h4 : ∀ r c, ins hs.sureste p = some (r, c) → InsPost hs.sureste p r c)
    (h : insertarHijos ins hs p = some (r, hs1)) : HijosPost hs p r hs1 := by
  obtain ⟨nw, ne, sw, se⟩ := hs
  simp only at i1 i2 i3 i4 h1 h2 h3 h4
  rcases e1 : ins nw p with _ | ⟨_ | _, c1⟩
  · simp [insertarHijos, e1] at h
  · have P1 := h1 _ _ e1
    have k1 := P1.marco rfl
    subst k1
    rcases e2 : ins ne p with _ | ⟨_ | _, c2⟩
    · simp [insertarHijos, e1, e2] at h
    · have P2 := h2 _ _ e2
      have k2 := P2.marco rfl
      subst k2
      rcases e3 : ins sw p with _ | ⟨_ | _, c3⟩
      · simp [insertarHijos, e1, e2, e3] at h
      · have P3 := h3 _ _ e3
        have k3 := P3.marco rfl
        subst k3
        rcases e4 : ins se p with _ | ⟨r4, c4⟩
        · simp [insertarHijos, e1, e2, e3, e4] at h
        · have P4 := h4 _ _ e4
          simp only [insertarHijos, e1, e2, e3, e4, Option.some.injEq, Prod.mk.injEq] at h
          obtain ⟨rfl, rfl⟩ := h
          refine ⟨?_, ?_, rfl, rfl, rfl, P4.borde, i1, i2, i3, P4.inv, ?_⟩
          · simp [← P1.ret, ← P2.ret, ← P3.ret, ← P4.ret]
          · intro hr
            rw [P4.marco hr]
          · intro hr
            simp only
            rw [P4.cont hr, Multiset.add_cons]
      · have P3 := h3 _ _ e3
        simp only [insertarHijos, e1, e2, e3, Option.some.injEq, Prod.mk.injEq] at h
        obtain ⟨rfl, rfl⟩ := h
        refine ⟨?_, ?_, rfl, rfl, P3.borde, rfl, i1, i2, P3.inv, i4, ?_⟩
        · simp [← P1.ret, ← P2.ret, ← P3.ret]
        · intro hr; cases hr
        · intro _
          simp only
          rw [P3.cont rfl, Multiset.add_cons, Multiset.cons_add]
    · have P2 := h2 _ _ e2
      simp only [insertarHijos, e1, e2, Option.some.injEq, Prod.mk.injEq] at h
      obtain ⟨rfl, rfl⟩ := h
      refine ⟨?_, ?_, rfl, P2.borde, rfl, rfl, i1, P2.inv, i3, i4, ?_⟩
      · simp [← P1.ret, ← P2.ret]
      · intro hr; cases hr
      · intro _
        simp only
        rw [P2.cont rfl, Multiset.add_cons, Multiset.cons_add, Multiset.cons_add]
  · have P1 := h1 _ _ e1
    simp only [insertarHijos, e1, Option.some.injEq, Prod.mk.injEq] at h
    obtain ⟨rfl, rfl⟩ := h
    refine ⟨?_, ?_, P1.borde, rfl, rfl, rfl, P1.inv, i2, i3, i4, ?_⟩
    · simp [← P1.ret]
    · intro hr; cases hr
    · intro _
      simp only
      rw [P1.cont rfl, Multiset.cons_add, Multiset.cons_add, Multiset.cons_add]


/-! ## Postcondition of `insertar` -/

theorem cubre (b : Rect) (p : Point) (h : b.contains p = true) :
    ((hijosNuevos b).noroeste.boundary.contains p || (hijosNuevos b).noreste.boundary.contains p ||
      (hijosNuevos b).suroeste.boundary.contains p ||
      (hijosNuevos b).sureste.boundary.contains p) = true := by
  have hr := ruta_lt_of_contains b p h
  unfold ruta at hr
  split_ifs at hr with c1 c2 c3 c4
  · simp [c1]
  · simp [c2]
  · simp [c3]
  · simp [c4]
  · omega

theorem contains_of_ruta (b : Rect) (q : Point) :
    (ruta b q = 0 → (hijosNuevos b).noroeste.boundary.contains q = true) ∧
    (ruta b q = 1 → (hijosNuevos b).noreste.boundary.contains q = true) ∧
    (ruta b q = 2 → (hijosNuevos b).suroeste.boundary.contains q = true) ∧
    (ruta b q = 3 → (hijosNuevos b).sureste.boundary.contains q = true) := by
  unfold ruta
  split_ifs with c1 c2 c3 c4 <;> simp_all

theorem length_hijos (nw ne sw se : Quadtree) :
    (todos nw ++ todos ne ++ todos sw ++ todos se).length =
      Multiset.card (contenido nw + contenido ne + contenido sw + contenido se) := by
  simp [contenido]

theorem inv_hoja_filtro (b c : Rect) (ps : List Point) (k : Nat)
    (hlen : ps.length ≤ CAPACIDAD)
    (hc : ∀ q, ruta b q = k → c.contains q = true) :
    Inv (hoja c (ps.filter (fun q => ruta b q = k))) := by
  refine ⟨(List.length_filter_le _ _).trans hlen, ?_⟩
  intro q hq
  rw [List.mem_filter] at hq
  exact hc q (by simpa using hq.2)

theorem insertar_post : ∀ (fuel : Nat) (t : Quadtree) (p : Point) (r : Bool) (t1 : Quadtree),
    Inv t → insertar fuel t p = some (r, t1) → InsPost t p r t1 := by
  intro fuel
  induction fuel with
  | zero => intro t p r t1 _ h; simp [insertar] at h
  | succ fuel ih =>
    intro t p r t1 hinv h
    unfold insertar at h
    by_cases hc : t.boundary.contains p = true
    swap
    · simp only [hc, Bool.not_eq_true] at h
      simp only [Bool.not_eq_true] at hc
      simp only [hc, Bool.not_false, ↓reduceIte, Option.some.injEq, Prod.mk.injEq] at h
      obtain ⟨rfl, rfl⟩ := h
      exact ⟨hc.symm, fun _ => rfl, rfl, hinv, fun hr => by cases hr⟩
    · simp only [hc, Bool.not_true, Bool.false_eq_true, ↓reduceIte] at h
      cases t with
      | hoja b ps =>
        simp only at h
        obtain ⟨hlen, hmem⟩ := hinv
        by_cases hl : ps.length < CAPACIDAD
        · simp only [hl, ↓reduceIte, Option.some.injEq, Prod.mk.injEq] at h
          obtain ⟨rfl, rfl⟩ := h
          refine ⟨hc.symm, (fun hr => by cases hr), rfl, ⟨?_, ?_⟩, fun _ => ?_⟩
          · simp only [List.length_append, List.length_singleton]; omega
          · intro q hq
            rw [List.mem_append, List.mem_singleton] at hq
            rcases hq with hq | rfl
            · exact hmem q hq
            · exact hc
          · simp
        · simp only [hl, ↓reduceIte] at h
          have hps : ps ≠ [] := by
            intro e; apply hl; rw [e]; simp [CAPACIDAD]
          cases fuel with
          | zero => rw [subdividir_cero b ps hps] at h; simp at h
          | succ n =>
            rw [subdividir_eq n b ps hlen] at h
            simp only [insertarRama] at h
            have hcr := contains_of_ruta b
            rcases e : insertarHijos (insertar (n + 1))
                ⟨hoja (hijosNuevos b).noroeste.boundary (ps.filter (fun q => ruta b q = 0)),
                  hoja (hijosNuevos b).noreste.boundary (ps.filter (fun q => ruta b q = 1)),
                  hoja (hijosNuevos b).suroeste.boundary (ps.filter (fun q => ruta b q = 2)),
                  hoja (hijosNuevos b).sureste.boundary (ps.filter (fun q => ruta b q = 3))⟩ p
              with _ | ⟨r1, hs1⟩
            · simp [e] at h
            · simp only [e, Option.some.injEq, Prod.mk.injEq] at h
              obtain ⟨rfl, rfl⟩ := h
              have j1 := inv_hoja_filtro b (hijosNuevos b).noroeste.boundary ps 0 hlen
                (fun q => (hcr q).1)
              have j2 := inv_hoja_filtro b (hijosNuevos b).noreste.boundary ps 1 hlen
                (fun q => (hcr q).2.1)
              have j3 := inv_hoja_filtro b (hijosNuevos b).suroeste.boundary ps 2 hlen
                (fun q => (hcr q).2.2.1)
              have j4 := inv_hoja_filtro b (hijosNuevos b).sureste.boundary ps 3 hlen
                (fun q => (hcr q).2.2.2)
              have HP := insertarHijos_post (insertar (n + 1)) _ p r1 hs1 j1 j2 j3 j4
                (fun r c hh => ih _ p r c j1 hh) (fun r c hh => ih _ p r c j2 hh)
                (fun r c hh => ih _ p r c j3 hh) (fun r c hh => ih _ p r c j4 hh) e
              have hr1 : r1 = true := by
                rw [HP.ret]
                exact cubre b p hc
              have hpart := particion_ruta b ps
                (fun q hq => ruta_lt_of_contains b q (hmem q hq))
              have hcont := HP.cont hr1
              simp only [contenido_hoja, hpart] at hcont
              have hfour : ps.length = 4 := by
                simp only [CAPACIDAD] at hl hlen; omega
              refine ⟨(by rw [hr1]; exact hc.symm), (fun hr => by rw [hr1] at hr; cases hr), rfl,
                ⟨rfl, HP.b1, HP.b2, HP.b3, HP.b4, HP.i1, HP.i2, HP.i3, HP.i4, ?_⟩, fun _ => ?_⟩
              · rw [length_hijos, hcont]
                simp [CAPACIDAD, hfour]
              · rw [contenido_rama, hcont]
                rfl
      | rama b ps nw ne sw se =>
        simp only [insertarRama] at h
        obtain ⟨hps, e1, e2, e3, e4, i1, i2, i3, i4, hcard⟩ := hinv
        rcases e : insertarHijos (insertar fuel) ⟨nw, ne, sw, se⟩ p with _ | ⟨r1, hs1⟩
        · simp [e] at h
        · simp only [e, Option.some.injEq, Prod.mk.injEq] at h
          obtain ⟨rfl, rfl⟩ := h
          have HP := insertarHijos_post (insertar fuel) _ p r1 hs1 i1 i2 i3 i4
            (fun r c hh => ih _ p r c i1 hh) (fun r c hh => ih _ p r c i2 hh)
            (fun r c hh => ih _ p r c i3 hh) (fun r c hh => ih _ p r c i4 hh) e
          have hr1 : r1 = true := by
            rw [HP.ret]
            simp only [e1, e2, e3, e4]
            exact cubre b p hc
          have hcont := HP.cont hr1
          simp only at hcont
          refine ⟨(by rw [hr1]; exact hc.symm), (fun hr => by rw [hr1] at hr; cases hr), rfl,
            ⟨hps, HP.b1.trans e1, HP.b2.trans e2, HP.b3.trans e3, HP.b4.trans e4,
              HP.i1, HP.i2, HP.i3, HP.i4, ?_⟩, fun _ => ?_⟩
          · rw [length_hijos] at hcard ⊢
            rw [hcont, Multiset.card_cons]
            omega
          · rw [contenido_rama, contenido_rama, hcont]


/-! ## Postcondition of `eliminar` -/

theorem borrarPrimero_eq (ps : List Point) (p : Point) :
    borrarPrimero ps p = if p ∈ ps then some (ps.erase p) else none := by
  induction ps with
  | nil => simp [borrarPrimero]
  | cons q qs ih =>
    unfold borrarPrimero
    by_cases hq : q = p
    · subst hq
      simp
    · have hne : ¬(q.x = p.x ∧ q.y = p.y) := by
        intro h
        apply hq
        cases q; cases p
        simp only [Point.mk.injEq]
        exact h
      have hpq : ¬p = q := fun e => hq e.symm
      rw [if_neg hne, ih]
      by_cases hm : p ∈ qs
      · simp [hm, List.erase_cons_tail, hq]
      · simp [hm, hpq]

theorem todos_of_not_dividido (t : Quadtree) (h : t.dividido = false) : todos t = t.puntos := by
  cases t with
  | hoja b ps => rfl
  | rama b ps nw ne sw se => simp [dividido] at h

theorem card_of_dividido (t : Quadtree) (hinv : Inv t) (h : t.dividido = true) :
    CAPACIDAD < (todos t).length := by
  cases t with
  | hoja b ps => simp [dividido] at h
  | rama b ps nw ne sw se => exact hinv.2.2.2.2.2.2.2.2.2

theorem length_le_of_not_dividido (t : Quadtree) (hinv : Inv t) (h : t.dividido = false) :
    (todos t).length ≤ CAPACIDAD := by
  cases t with
  | hoja b ps => exact hinv.1
  | rama b ps nw ne sw se => simp [dividido] at h

/-- Invariant I2 at the root of a subtree: every stored point lies inside the boundary. -/
theorem inv_contains : ∀ (t : Quadtree), Inv t → ∀ q ∈ todos t, t.boundary.contains q = true := by
  intro t
  induction t with
  | hoja b ps => intro hinv q hq; exact hinv.2 q hq
  | rama b ps nw ne sw se ih1 ih2 ih3 ih4 =>
    intro hinv q hq
    obtain ⟨_, e1, e2, e3, e4, i1, i2, i3, i4, _⟩ := hinv
    simp only [todos, List.mem_append] at hq
    simp only [boundary_rama]
    rcases hq with ((hq | hq) | hq) | hq
    · exact contains_of_noroeste b q (e1 ▸ ih1 i1 q hq)
    · exact contains_of_noreste b q (e2 ▸ ih2 i2 q hq)
    · exact contains_of_suroeste b q (e3 ▸ ih3 i3 q hq)
    · exact contains_of_sureste b q (e4 ▸ ih4 i4 q hq)

theorem fusionar_eq (b : Rect) (ps : List Point) (nw ne sw se : Quadtree) :
    fusionar b ps nw ne sw se =
      if (nw.dividido = false ∧ ne.dividido = false ∧ sw.dividido = false ∧
            se.dividido = false) ∧
          nw.puntos.length + ne.puntos.length + sw.puntos.length + se.puntos.length ≤ CAPACIDAD
      then hoja b (ps ++ nw.puntos ++ ne.puntos ++ sw.puntos ++ se.puntos)
      else rama b ps nw ne sw se := by
  simp only [fusionar]
  by_cases h : (nw.dividido = false ∧ ne.dividido = false ∧ sw.dividido = false ∧
      se.dividido = false)
  · obtain ⟨d1, d2, d3, d4⟩ := h
    simp [d1, d2, d3, d4]
  · have hb : ¬((!nw.dividido && !ne.dividido && !sw.dividido && !se.dividido) = true) := by
      intro hh
      apply h
      simpa [and_assoc] using hh
    rw [if_neg hb, if_neg (fun hh => h hh.1)]

theorem boundary_fusionar (b : Rect) (ps : List Point) (nw ne sw se : Quadtree) :
    (fusionar b ps nw ne sw se).boundary = b := by
  rw [fusionar_eq]
  split_ifs <;> rfl

theorem contenido_fusionar (b : Rect) (nw ne sw se : Quadtree) :
    contenido (fusionar b [] nw ne sw se) =
      contenido nw + contenido ne + contenido sw + contenido se := by
  rw [fusionar_eq]
  split_ifs with h
  · obtain ⟨⟨d1, d2, d3, d4⟩, _⟩ := h
    simp only [contenido, ← todos_of_not_dividido _ d1, ← todos_of_not_dividido _ d2,
      ← todos_of_not_dividido _ d3, ← todos_of_not_dividido _ d4, List.nil_append, todos]
    simp
  · simp

theorem inv_fusionar (b : Rect) (nw ne sw se : Quadtree)
    (e1 : nw.boundary = (hijosNuevos b).noroeste.boundary)
    (e2 : ne.boundary = (hijosNuevos b).noreste.boundary)
    (e3 : sw.boundary = (hijosNuevos b).suroeste.boundary)
    (e4 : se.boundary = (hijosNuevos b).sureste.boundary)
    (i1 : Inv nw) (i2 : Inv ne) (i3 : Inv sw) (i4 : Inv se) :
    Inv (fusionar b [] nw ne sw se) := by
  rw [fusionar_eq]
  split_ifs with h
  · obtain ⟨⟨d1, d2, d3, d4⟩, h2⟩ := h
    refine ⟨?_, ?_⟩
    · simp only [List.nil_append, List.length_append]
      omega
    · intro q hq
      simp only [List.nil_append, List.mem_append, ← todos_of_not_dividido _ d1,
        ← todos_of_not_dividido _ d2, ← todos_of_not_dividido _ d3,
        ← todos_of_not_dividido _ d4] at hq
      rcases hq with ((hq | hq) | hq) | hq
      · exact contains_of_noroeste b q (e1 ▸ inv_contains nw i1 q hq)
      · exact contains_of_noreste b q (e2 ▸ inv_contains ne i2 q hq)
      · exact contains_of_suroeste b q (e3 ▸ inv_contains sw i3 q hq)
      · exact contains_of_sureste b q (e4 ▸ inv_contains se i4 q hq)
  · refine ⟨rfl, e1, e2, e3, e4, i1, i2, i3, i4, ?_⟩
    simp only [List.length_append]
    by_cases d1 : nw.dividido = true
    · have := card_of_dividido nw i1 d1; omega
    · by_cases d2 : ne.dividido = true
      · have := card_of_dividido ne i2 d2; omega
      · by_cases d3 : sw.dividido = true
        · have := card_of_dividido sw i3 d3; omega
        · by_cases d4 : se.dividido = true
          · have := card_of_dividido se i4 d4; omega
          · simp only [Bool.not_eq_true] at d1 d2 d3 d4
            have hh : ¬(nw.puntos.length + ne.puntos.length + sw.puntos.length +
                se.puntos.length ≤ CAPACIDAD) := fun x => h ⟨⟨d1, d2, d3, d4⟩, x⟩
            rw [todos_of_not_dividido _ d1, todos_of_not_dividido _ d2,
              todos_of_not_dividido _ d3, todos_of_not_dividido _ d4]
            omega


theorem eliminar_post : ∀ (t : Quadtree) (p : Point), Inv t → ElimPost t p (eliminar t p) := by
  intro t
  induction t with
  | hoja b ps =>
    intro p hinv
    obtain ⟨hlen, hmem⟩ := hinv
    unfold eliminar
    rw [borrarPrimero_eq]
    by_cases hc : b.contains p = true
    · by_cases hp : p ∈ ps
      · simp only [hc, Bool.not_true, Bool.false_eq_true, ↓reduceIte, hp]
        refine ⟨(by simpa [todos] using hp), (fun hr => by cases hr), rfl, ⟨?_, ?_⟩, fun _ => ?_⟩
        · exact (List.length_erase_le p ps).trans hlen
        · intro q hq
          exact hmem q (List.mem_of_mem_erase hq)
        · simp only [contenido_hoja, Multiset.cons_coe]
          exact Multiset.coe_eq_coe.mpr (List.perm_cons_erase hp)
      · simp only [hc, Bool.not_true, Bool.false_eq_true, ↓reduceIte, hp]
        exact ⟨(by simpa [todos] using hp), fun _ => rfl, rfl, ⟨hlen, hmem⟩, (fun hr => by cases hr)⟩
    · have hp : p ∉ ps := fun hp => hc (hmem p hp)
      simp only [hc, Bool.not_eq_true] at *
      simp only [hc, Bool.not_false, ↓reduceIte]
      exact ⟨(by simpa [todos] using hp), fun _ => rfl, rfl, ⟨hlen, hmem⟩, (fun hr => by cases hr)⟩
  | rama b ps nw ne sw se ih1 ih2 ih3 ih4 =>
    intro p hinv
    have hall := inv_contains _ hinv
    obtain ⟨hps, e1, e2, e3, e4, i1, i2, i3, i4, hcard⟩ := hinv
    subst hps
    have P1 := ih1 p i1
    have P2 := ih2 p i2
    have P3 := ih3 p i3
    have P4 := ih4 p i4
    unfold eliminar
    by_cases hc : b.contains p = true
    swap
    · have hp : p ∉ todos (rama b [] nw ne sw se) := fun hp => hc (hall p hp)
      simp only [Bool.not_eq_true] at hc
      simp only [hc, Bool.not_false, ↓reduceIte]
      exact ⟨(by simpa using hp), fun _ => rfl, rfl,
        ⟨rfl, e1, e2, e3, e4, i1, i2, i3, i4, hcard⟩, (fun hr => by cases hr)⟩
    simp only [hc, Bool.not_true, Bool.false_eq_true, ↓reduceIte]
    by_cases r1 : (eliminar nw p).1 = true
    · simp only [r1, ↓reduceIte]
      refine ⟨?_, (fun hr => by cases hr), boundary_fusionar _ _ _ _ _ _,
        inv_fusionar b _ _ _ _ (P1.borde.trans e1) e2 e3 e4 P1.inv i2 i3 i4, fun _ => ?_⟩
      · simp only [todos, List.mem_append, true_iff]
        exact Or.inl (Or.inl (Or.inl (P1.ret.mp r1)))
      · rw [contenido_rama, contenido_fusionar, P1.cont r1]
        simp only [Multiset.cons_add]
    have k1 := P1.marco (by simpa using r1)
    have n1 : p ∉ todos nw := fun h => r1 (P1.ret.mpr h)
    simp only [r1, ↓reduceIte, Bool.false_eq_true, k1]
    by_cases r2 : (eliminar ne p).1 = true
    · simp only [r2, ↓reduceIte]
      refine ⟨?_, (fun hr => by cases hr), boundary_fusionar _ _ _ _ _ _,
        inv_fusionar b _ _ _ _ e1 (P2.borde.trans e2) e3 e4 i1 P2.inv i3 i4, fun _ => ?_⟩
      · simp only [todos, List.mem_append, true_iff]
        exact Or.inl (Or.inl (Or.inr (P2.ret.mp r2)))
      · rw [contenido_rama, contenido_fusionar, P2.cont r2]
        simp only [Multiset.cons_add, Multiset.add_cons]
    have k2 := P2.marco (by simpa using r2)
    have n2 : p ∉ todos ne := fun h => r2 (P2.ret.mpr h)
    simp only [r2, ↓reduceIte, Bool.false_eq_true, k2]
    by_cases r3 : (eliminar sw p).1 = true
    · simp only [r3, ↓reduceIte]
      refine ⟨?_, (fun hr => by cases hr), boundary_fusionar _ _ _ _ _ _,
        inv_fusionar b _ _ _ _ e1 e2 (P3.borde.trans e3) e4 i1 i2 P3.inv i4, fun _ => ?_⟩
      · simp only [todos, List.mem_append, true_iff]
        exact Or.inl (Or.inr (P3.ret.mp r3))
      · rw [contenido_rama, contenido_fusionar, P3.cont r3]
        simp only [Multiset.cons_add, Multiset.add_cons]
    have k3 := P3.marco (by simpa using r3)
    have n3 : p ∉ todos sw := fun h => r3 (P3.ret.mpr h)
    simp only [r3, ↓reduceIte, Bool.false_eq_true, k3]
    by_cases r4 : (eliminar se p).1 = true
    · simp only [r4, ↓reduceIte]
      refine ⟨?_, (fun hr => by cases hr), boundary_fusionar _ _ _ _ _ _,
        inv_fusionar b _ _ _ _ e1 e2 e3 (P4.borde.trans e4) i1 i2 i3 P4.inv, fun _ => ?_⟩
      · simp only [todos, List.mem_append, true_iff]
        exact Or.inr (P4.ret.mp r4)
      · rw [contenido_rama, contenido_fusionar, P4.cont r4]
        simp only [Multiset.cons_add, Multiset.add_cons]
    have k4 := P4.marco (by simpa using r4)
    have n4 : p ∉ todos se := fun h => r4 (P4.ret.mpr h)
    simp only [r4, ↓reduceIte, Bool.false_eq_true, k4]
    refine ⟨?_, fun _ => rfl, rfl, ⟨rfl, e1, e2, e3, e4, i1, i2, i3, i4, hcard⟩,
      (fun hr => by cases hr)⟩
    simp only [todos, List.mem_append, Bool.false_eq_true, false_iff]
    tauto


/-! ## Reachable trees satisfy the invariant -/

theorem inv_vacio (region : Rect) : Inv (vacio region) :=
  ⟨by simp [CAPACIDAD], by simp⟩

theorem alcanzable_inv (t : Quadtree) (h : Alcanzable t) : Inv t := by
  induction h with
  | inicial region => exact inv_vacio region
  | trasInsertar fuel t p r t1 _ hi ih => exact (insertar_post fuel t p r t1 ih hi).inv
  | trasEliminar t p _ ih => exact (eliminar_post t p ih).inv

theorem insertarTodos_post (fuel : Nat) :
    ∀ (ps : List Point) (t : Quadtree) (rs : List Bool) (t1 : Quadtree),
      Inv t → insertarTodos fuel t ps = some (rs, t1) →
        Inv t1 ∧ t1.boundary = t.boundary ∧
          contenido t1 = contenido t + (aceptados ps rs : Multiset Point) := by
  intro ps
  induction ps with
  | nil =>
    intro t rs t1 hinv h
    simp only [insertarTodos, Option.some.injEq, Prod.mk.injEq] at h
    obtain ⟨rfl, rfl⟩ := h
    exact ⟨hinv, rfl, by simp [aceptados]⟩
  | cons p ps ih =>
    intro t rs t1 hinv h
    unfold insertarTodos at h
    rcases e : insertar fuel t p with _ | ⟨r, t2⟩
    · simp [e] at h
    · have P := insertar_post fuel t p r t2 hinv e
      rcases e2 : insertarTodos fuel t2 ps with _ | ⟨rs2, t3⟩
      · simp [e, e2] at h
      · simp only [e, e2, Option.some.injEq, Prod.mk.injEq] at h
        obtain ⟨rfl, rfl⟩ := h
        obtain ⟨j1, j2, j3⟩ := ih t2 rs2 t3 P.inv e2
        refine ⟨j1, j2.trans P.borde, ?_⟩
        cases r with
        | false =>
          rw [j3, P.marco rfl]
          simp [aceptados]
        | true =>
          rw [j3, P.cont rfl]
          simp only [aceptados, ↓reduceIte, ← Multiset.cons_coe, Multiset.cons_add,
            Multiset.add_cons]

theorem alcanzable_insertarTodos (fuel : Nat) :
    ∀ (ps : List Point) (t : Quadtree) (rs : List Bool) (t1 : Quadtree),
      Alcanzable t → insertarTodos fuel t ps = some (rs, t1) → Alcanzable t1 := by
  intro ps
  induction ps with
  | nil =>
    intro t rs t1 ha h
    simp only [insertarTodos, Option.some.injEq, Prod.mk.injEq] at h
    obtain ⟨_, rfl⟩ := h
    exact ha
  | cons p ps ih =>
    intro t rs t1 ha h
    unfold insertarTodos at h
    rcases e : insertar fuel t p with _ | ⟨r, t2⟩
    · simp [e] at h
    · rcases e2 : insertarTodos fuel t2 ps with _ | ⟨rs2, t3⟩
      · simp [e, e2] at h
      · simp only [e, e2, Option.some.injEq, Prod.mk.injEq] at h
        obtain ⟨_, rfl⟩ := h
        exact ih t2 rs2 t3 (Alcanzable.trasInsertar fuel t p r t2 ha e) e2

theorem alcanzable_eliminarTodos :
    ∀ (ps : List Point) (t : Quadtree), Alcanzable t → Alcanzable (eliminarTodos t ps) := by
  intro ps
  induction ps with
  | nil => intro t ha; exact ha
  | cons p ps ih => intro t ha; exact ih _ (Alcanzable.trasEliminar t p ha)

/-- The tree `main` builds by its eight insertions is reachable. -/
theorem alcanzable_arbolMain : Alcanzable arbolMain :=
  alcanzable_insertarTodos 3 puntosMain (vacio area) (List.replicate 8 true) arbolMain
    (Alcanzable.inicial area) (by decide!)

/-! ## Range queries -/

theorem filtrarEn_eq (range : Rect) (ps encontrados : List Point) :
    filtrarEn range ps encontrados = encontrados ++ ps.filter (fun q => range.contains q) := by
  unfold filtrarEn
  induction ps generalizing encontrados with
  | nil => simp
  | cons q ps ih =>
    simp only [List.foldl_cons, List.filter_cons]
    rw [ih]
    cases range.contains q <;> simp

theorem buscarEnRango_eq : ∀ (t : Quadtree) (range : Rect) (encontrados : List Point),
    Inv t →
      buscarEnRango t range encontrados =
        encontrados ++ (todos t).filter (fun q => range.contains q) := by
  intro t
  induction t with
  | hoja b ps =>
    intro range enc hinv
    unfold buscarEnRango
    by_cases hi : b.intersects range = true
    · simp [hi, filtrarEn_eq, todos]
    · have hnil : (todos (hoja b ps)).filter (fun q => range.contains q) = [] := by
        rw [List.filter_eq_nil_iff]
        intro q hq hc
        exact hi (intersects_of_contains b range q (hinv.2 q hq) hc)
      rw [hnil]
      simp [hi]
  | rama b ps nw ne sw se ih1 ih2 ih3 ih4 =>
    intro range enc hinv
    have hall := inv_contains _ hinv
    obtain ⟨hps, e1, e2, e3, e4, i1, i2, i3, i4, hcard⟩ := hinv
    subst hps
    unfold buscarEnRango
    by_cases hi : b.intersects range = true
    · simp only [hi, Bool.not_true, Bool.false_eq_true, ↓reduceIte]
      rw [ih4 _ _ i4, ih3 _ _ i3, ih2 _ _ i2, ih1 _ _ i1, filtrarEn_eq]
      simp [todos]
    · have hnil : (todos (rama b [] nw ne sw se)).filter (fun q => range.contains q) = [] := by
        rw [List.filter_eq_nil_iff]
        intro q hq hc
        exact hi (intersects_of_contains b range q (hall q hq) hc)
      rw [hnil]
      simp [hi]

/-- C1. On every reachable tree and for every query rectangle, `buscarEnRango` (started
on an empty output vector) returns exactly the stored points, in traversal order, that
`range.contains` accepts: pruning by `intersects` neither loses nor adds a point. -/
theorem buscarEnRango_eq_filter_todos (t : Quadtree) (range : Rect) (h : Alcanzable t) :
    buscarEnRango t range [] = (todos t).filter (fun q => range.contains q) := by
  rw [buscarEnRango_eq t range [] (alcanzable_inv t h)]
  simp

/-- C1 at the tree of `main` and its query rectangle. -/
theorem buscarEnRango_eq_filter_todos_witness :
    Alcanzable arbolMain ∧
      buscarEnRango arbolMain areaConsulta [] =
        (todos arbolMain).filter (fun q => areaConsulta.contains q) :=
  ⟨alcanzable_arbolMain,
    buscarEnRango_eq_filter_todos arbolMain areaConsulta alcanzable_arbolMain⟩

/-! ## Insertion -/

/-- C2. For a reachable tree and a completed call `insertar(p)`: the call returns true
exactly when the root boundary contains `p`, and a call that returns false leaves the tree
unchanged. -/
theorem insertar_true_iff_contains (t : Quadtree) (p : Point) (fuel : Nat) (r : Bool)
    (t1 : Quadtree) (h : Alcanzable t) (hi : insertar fuel t p = some (r, t1)) :
    (r = true ↔ t.boundary.contains p = true) ∧ (r = false → t1 = t) := by
  have P := insertar_post fuel t p r t1 (alcanzable_inv t h) hi
  exact ⟨by rw [P.ret], P.marco⟩

/-- C2 at the tree of `main` and the point `(9, 0)` outside its boundary. -/
theorem insertar_true_iff_contains_witness :
    (false = true ↔ arbolMain.boundary.contains ⟨9, 0⟩ = true) ∧ (false = false → arbolMain = arbolMain) :=
  insertar_true_iff_contains arbolMain ⟨9, 0⟩ 1 false arbolMain alcanzable_arbolMain (by decide!)

/-- C3. After any sequence of completed `insertar` calls on an initially empty tree, a
query with the root boundary returns, as a multiset, exactly the points whose call
returned true, duplicates included. -/
theorem buscarEnRango_raiz_eq_aceptados (region : Rect) (ps : List Point) (fuel : Nat)
    (rs : List Bool) (t : Quadtree) (h : insertarTodos fuel (vacio region) ps = some (rs, t)) :
    (buscarEnRango t region [] : Multiset Point) = (aceptados ps rs : Multiset Point) := by
  obtain ⟨hinv, hb, hc⟩ := insertarTodos_post fuel ps (vacio region) rs t (inv_vacio region) h
  rw [buscarEnRango_eq t region [] hinv]
  have hall : (todos t).filter (fun q => region.contains q) = todos t := by
    rw [List.filter_eq_self]
    intro q hq
    have := inv_contains t hinv q hq
    rw [hb] at this
    exact this
  rw [List.nil_append, hall]
  have : contenido (vacio region) = 0 := rfl
  rw [this, zero_add] at hc
  exact hc


/-- C3 at the eight insertions of `main`. -/
theorem buscarEnRango_raiz_eq_aceptados_witness :
    insertarTodos 3 (vacio area) puntosMain = some (List.replicate 8 true, arbolMain) ∧
      (buscarEnRango arbolMain area [] : Multiset Point) =
        (aceptados puntosMain (List.replicate 8 true) : Multiset Point) :=
  ⟨by decide!,
    buscarEnRango_raiz_eq_aceptados area puntosMain 3 (List.replicate 8 true) arbolMain
      (by decide!)⟩

/-! ## Deletion -/

/-- C4. On a reachable tree `eliminar(p)` returns false exactly when `p` lies outside the
root boundary or no stored point has the coordinates of `p`; and a call that returns false
leaves the tree unchanged. -/
theorem eliminar_false_iff (t : Quadtree) (p : Point) (h : Alcanzable t) :
    ((eliminar t p).1 = false ↔
        (t.boundary.contains p = false ∨ ¬∃ q ∈ todos t, q.x = p.x ∧ q.y = p.y)) ∧
      ((eliminar t p).1 = false → (eliminar t p).2 = t) := by
  have hinv := alcanzable_inv t h
  have P := eliminar_post t p hinv
  have hmem : (∃ q ∈ todos t, q.x = p.x ∧ q.y = p.y) ↔ p ∈ todos t := by
    constructor
    · rintro ⟨q, hq, hx, hy⟩
      have : q = p := by
        cases q; cases p
        simp only [Point.mk.injEq]
        exact ⟨hx, hy⟩
      exact this ▸ hq
    · intro hp
      exact ⟨p, hp, rfl, rfl⟩
  refine ⟨?_, P.marco⟩
  rw [hmem, ← P.ret]
  constructor
  · intro hf
    right
    rw [hf]
    simp
  · rintro (hc | hn)
    · cases hr : (eliminar t p).1
      · rfl
      · have hp := P.ret.mp hr
        rw [inv_contains t hinv p hp] at hc
        cases hc
    · simpa using hn

/-- C4 at the tree of `main` and the point `(5, 5)`, inside the boundary but not stored. -/
theorem eliminar_false_iff_witness :
    Alcanzable arbolMain ∧
      (((eliminar arbolMain ⟨5, 5⟩).1 = false ↔
          (arbolMain.boundary.contains ⟨5, 5⟩ = false ∨
            ¬∃ q ∈ todos arbolMain, q.x = (⟨5, 5⟩ : Point).x ∧ q.y = (⟨5, 5⟩ : Point).y)) ∧
        ((eliminar arbolMain ⟨5, 5⟩).1 = false → (eliminar arbolMain ⟨5, 5⟩).2 = arbolMain)) :=
  ⟨alcanzable_arbolMain, eliminar_false_iff arbolMain ⟨5, 5⟩ alcanzable_arbolMain⟩

/-- C5. On a reachable tree, when `eliminar(p)` returns true the multiset of stored points
afterwards is the multiset before with exactly one occurrence of `p` removed. -/
theorem contenido_eliminar (t : Quadtree) (p : Point) (h : Alcanzable t)
    (hr : (eliminar t p).1 = true) :
    contenido (eliminar t p).2 = (contenido t).erase p := by
  have P := eliminar_post t p (alcanzable_inv t h)
  rw [P.cont hr, Multiset.erase_cons_head]

/-- C5 at the tree of `main` and the stored point `(3, 3)`. -/
theorem contenido_eliminar_witness :
    (eliminar arbolMain ⟨3, 3⟩).1 = true ∧
      contenido (eliminar arbolMain ⟨3, 3⟩).2 = (contenido arbolMain).erase ⟨3, 3⟩ :=
  ⟨by decide!, contenido_eliminar arbolMain ⟨3, 3⟩ alcanzable_arbolMain (by decide!)⟩

/-! ## Capacity and merge invariants -/

theorem enCapacidad_of_inv : ∀ (t : Quadtree), Inv t → EnCapacidad t := by
  intro t
  induction t with
  | hoja b ps => intro hinv; exact hinv.1
  | rama b ps nw ne sw se ih1 ih2 ih3 ih4 =>
    intro hinv
    obtain ⟨_, _, _, _, _, i1, i2, i3, i4, _⟩ := hinv
    exact ⟨ih1 i1, ih2 i2, ih3 i3, ih4 i4⟩

/-- C6. In every reachable tree every leaf holds at most `CAPACIDAD` points. -/
theorem enCapacidad_of_alcanzable (t : Quadtree) (h : Alcanzable t) : EnCapacidad t :=
  enCapacidad_of_inv t (alcanzable_inv t h)

/-- C6 at the tree of `main`. -/
theorem enCapacidad_of_alcanzable_witness : Alcanzable arbolMain ∧ EnCapacidad arbolMain :=
  ⟨alcanzable_arbolMain, enCapacidad_of_alcanzable arbolMain alcanzable_arbolMain⟩

theorem sinFusionPendiente_of_inv : ∀ (t : Quadtree), Inv t → SinFusionPendiente t := by
  intro t
  induction t with
  | hoja b ps => intro _; trivial
  | rama b ps nw ne sw se ih1 ih2 ih3 ih4 =>
    intro hinv
    obtain ⟨_, _, _, _, _, i1, i2, i3, i4, hcard⟩ := hinv
    refine ⟨?_, ih1 i1, ih2 i2, ih3 i3, ih4 i4⟩
    rintro ⟨d1, d2, d3, d4, hsum⟩
    simp only [List.length_append, todos_of_not_dividido _ d1, todos_of_not_dividido _ d2,
      todos_of_not_dividido _ d3, todos_of_not_dividido _ d4] at hcard
    omega

/-- C7. After any `eliminar` call on a reachable tree, no subdivided node anywhere in the
tree has four undivided children whose combined point count is at most `CAPACIDAD`. -/
theorem sinFusionPendiente_eliminar (t : Quadtree) (p : Point) (h : Alcanzable t) :
    SinFusionPendiente (eliminar t p).2 :=
  sinFusionPendiente_of_inv _ (eliminar_post t p (alcanzable_inv t h)).inv

/-- C7 at the tree of `main` and the deletion of `(3, 3)`, which merges a quadrant. -/
theorem sinFusionPendiente_eliminar_witness :
    Alcanzable arbolMain ∧ SinFusionPendiente (eliminar arbolMain ⟨3, 3⟩).2 :=
  ⟨alcanzable_arbolMain, sinFusionPendiente_eliminar arbolMain ⟨3, 3⟩ alcanzable_arbolMain⟩


/-! ## The scenario of `main` -/

/-- C9. On the empty tree over `Rect(0,0,8,8)` the eight insertions of `main` all return
true and the root is subdivided from the fifth on; the query `Rect(0,0,1,1)` returns exactly
`(1,1)`; deleting `(3,3)` and `(7,6)` succeeds, leaves that query result unchanged, and
merges the north-east quadrant back into a leaf holding `(2,5), (1,1), (2,3)`. -/
theorem escenario_main :
    (List.range 9).map (fun n =>
        (insertarTodos 3 (vacio area) (puntosMain.take n)).map
          (fun res => (res.1, res.2.dividido))) =
      [some ([], false), some ([true], false), some ([true, true], false),
        some ([true, true, true], false), some ([true, true, true, true], false),
        some ([true, true, true, true, true], true),
        some ([true, true, true, true, true, true], true),
        some ([true, true, true, true, true, true, true], true),
        some ([true, true, true, true, true, true, true, true], true)] ∧
      insertarTodos 3 (vacio area) puntosMain = some (List.replicate 8 true, arbolMain) ∧
      buscarEnRango arbolMain areaConsulta [] = [⟨1, 1⟩] ∧
      (eliminar arbolMain ⟨3, 3⟩).1 = true ∧
      (eliminar (eliminar arbolMain ⟨3, 3⟩).2 ⟨7, 6⟩).1 = true ∧
      (eliminar (eliminar arbolMain ⟨3, 3⟩).2 ⟨7, 6⟩).2 = arbolMainFinal ∧
      buscarEnRango arbolMainFinal areaConsulta [] = [⟨1, 1⟩] ∧
      arbolMainFinal.dividido = true ∧
      (∃ nw sw se, arbolMainFinal =
        rama area [] nw (hoja ⟨4, 4, 4, 4⟩ [⟨2, 5⟩, ⟨1, 1⟩, ⟨2, 3⟩]) sw se) := by
  refine ⟨by decide!, by decide!, by decide!, by decide!, by decide!, by decide!, by decide!,
    rfl, ⟨_, _, _, rfl⟩⟩

/-! ## The recursion budget is monotone -/

theorem insertarHijos_mono (ins ins1 : Quadtree → Point → Option (Bool × Quadtree))
    (hle : ∀ c p res, ins c p = some res → ins1 c p = some res)
    (hs : Hijos) (p : Point) (res : Bool × Hijos)
    (h : insertarHijos ins hs p = some res) : insertarHijos ins1 hs p = some res := by
  unfold insertarHijos at h ⊢
  rcases e1 : ins hs.noroeste p with _ | ⟨_ | _, c1⟩
  · simp [e1] at h
  · rw [hle _ _ _ e1]
    simp only [e1] at h
    rcases e2 : ins hs.noreste p with _ | ⟨_ | _, c2⟩
    · simp [e2] at h
    · rw [hle _ _ _ e2]
      simp only [e2] at h
      rcases e3 : ins hs.suroeste p with _ | ⟨_ | _, c3⟩
      · simp [e3] at h
      · rw [hle _ _ _ e3]
        simp only [e3] at h
        rcases e4 : ins hs.sureste p with _ | ⟨r4, c4⟩
        · simp [e4] at h
        · rw [hle _ _ _ e4]
          simp only [e4] at h
          exact h
      · rw [hle _ _ _ e3]
        simp only [e3] at h
        exact h
    · rw [hle _ _ _ e2]
      simp only [e2] at h
      exact h
  · rw [hle _ _ _ e1]
    simp only [e1] at h
    exact h

theorem redistribuir_mono (ins ins1 : Quadtree → Point → Option (Bool × Quadtree))
    (hle : ∀ c p res, ins c p = some res → ins1 c p = some res) :
    ∀ (ps : List Point) (hs res : Hijos),
      redistribuir ins ps hs = some res → redistribuir ins1 ps hs = some res := by
  intro ps
  induction ps with
  | nil => intro hs res h; simpa [redistribuir] using h
  | cons q ps ih =>
    intro hs res h
    unfold redistribuir at h ⊢
    rcases e : insertarHijos ins hs q with _ | ⟨r, hs1⟩
    · simp [e] at h
    · rw [insertarHijos_mono ins ins1 hle hs q _ e]
      simp only [e] at h
      exact ih _ _ h

theorem subdividir_mono (ins ins1 : Quadtree → Point → Option (Bool × Quadtree))
    (hle : ∀ c p res, ins c p = some res → ins1 c p = some res)
    (b : Rect) (ps : List Point) (res : Quadtree)
    (h : subdividir ins b ps = some res) : subdividir ins1 b ps = some res := by
  unfold subdividir at h ⊢
  rcases e : redistribuir ins ps (hijosNuevos b) with _ | hs
  · simp [e] at h
  · rw [redistribuir_mono ins ins1 hle ps _ _ e]
    simp only [e] at h
    exact h

theorem insertarRama_mono (ins ins1 : Quadtree → Point → Option (Bool × Quadtree))
    (hle : ∀ c p res, ins c p = some res → ins1 c p = some res)
    (t : Quadtree) (p : Point) (res : Bool × Quadtree)
    (h : insertarRama ins t p = some res) : insertarRama ins1 t p = some res := by
  cases t with
  | hoja b ps => simp [insertarRama] at h
  | rama b ps nw ne sw se =>
    simp only [insertarRama] at h ⊢
    rcases e : insertarHijos ins ⟨nw, ne, sw, se⟩ p with _ | ⟨r, hs1⟩
    · simp [e] at h
    · rw [insertarHijos_mono ins ins1 hle _ p _ e]
      simp only [e] at h
      exact h

theorem insertar_succ : ∀ (n : Nat) (t : Quadtree) (p : Point) (res : Bool × Quadtree),
    insertar n t p = some res → insertar (n + 1) t p = some res := by
  intro n
  induction n with
  | zero => intro t p res h; simp [insertar] at h
  | succ n ih =>
    intro t p res h
    unfold insertar at h ⊢
    by_cases hc : (!t.boundary.contains p) = true
    · simp only [hc, ↓reduceIte] at h ⊢
      exact h
    · simp only [hc, ↓reduceIte, Bool.false_eq_true] at h ⊢
      cases t with
      | hoja b ps =>
        simp only at h ⊢
        by_cases hl : ps.length < CAPACIDAD
        · simp only [hl, ↓reduceIte] at h ⊢
          exact h
        · simp only [hl, ↓reduceIte] at h ⊢
          rcases e : subdividir (insertar n) b ps with _ | t1
          · simp [e] at h
          · rw [subdividir_mono _ _ ih b ps t1 e]
            simp only [e] at h
            exact insertarRama_mono _ _ ih t1 p res h
      | rama b ps nw ne sw se =>
        simp only at h ⊢
        exact insertarRama_mono _ _ ih _ p res h

theorem insertar_mono (n m : Nat) (hnm : n ≤ m) (t : Quadtree) (p : Point)
    (res : Bool × Quadtree) (h : insertar n t p = some res) : insertar m t p = some res := by
  induction hnm with
  | refl => exact h
  | step _ ih => exact insertar_succ _ t p res ih

theorem insertarTodos_mono (n m : Nat) (hnm : n ≤ m) :
    ∀ (ps : List Point) (t : Quadtree) (res : List Bool × Quadtree),
      insertarTodos n t ps = some res → insertarTodos m t ps = some res := by
  intro ps
  induction ps with
  | nil => intro t res h; simpa [insertarTodos] using h
  | cons p ps ih =>
    intro t res h
    unfold insertarTodos at h ⊢
    rcases e : insertar n t p with _ | ⟨r, t1⟩
    · simp [e] at h
    · rw [insertar_mono n m hnm t p _ e]
      simp only [e] at h ⊢
      rcases e2 : insertarTodos n t1 ps with _ | ⟨rs, t2⟩
      · simp [e2] at h
      · rw [ih t1 _ e2]
        simp only [e2] at h
        exact h


/-! ## Termination of `insertar` -/

theorem insertar_fuera (n : Nat) (t : Quadtree) (p : Point) (h : t.boundary.contains p = false) :
    insertar (n + 1) t p = some (false, t) := by
  simp [insertar, h]

theorem insertarHijos_some (ins : Quadtree → Point → Option (Bool × Quadtree))
    (hs : Hijos) (p : Point)
    (h1 : ∃ res, ins hs.noroeste p = some res) (h2 : ∃ res, ins hs.noreste p = some res)
    (h3 : ∃ res, ins hs.suroeste p = some res) (h4 : ∃ res, ins hs.sureste p = some res) :
    ∃ res, insertarHijos ins hs p = some res := by
  obtain ⟨⟨r1, c1⟩, e1⟩ := h1
  obtain ⟨⟨r2, c2⟩, e2⟩ := h2
  obtain ⟨⟨r3, c3⟩, e3⟩ := h3
  obtain ⟨⟨r4, c4⟩, e4⟩ := h4
  unfold insertarHijos
  rw [e1, e2, e3, e4]
  cases r1 <;> cases r2 <;> cases r3 <;> simp

theorem insertarRama_some (ins : Quadtree → Point → Option (Bool × Quadtree))
    (b : Rect) (ps : List Point) (nw ne sw se : Quadtree) (p : Point)
    (h1 : ∃ res, ins nw p = some res) (h2 : ∃ res, ins ne p = some res)
    (h3 : ∃ res, ins sw p = some res) (h4 : ∃ res, ins se p = some res) :
    ∃ res, insertarRama ins (rama b ps nw ne sw se) p = some res := by
  obtain ⟨⟨r, hs1⟩, e⟩ := insertarHijos_some ins ⟨nw, ne, sw, se⟩ p h1 h2 h3 h4
  exact ⟨(r, rama b ps hs1.noroeste hs1.noreste hs1.suroeste hs1.sureste), by
    simp only [insertarRama, e]⟩

theorem abs_le_of_contains (b : Rect) (p q : Point)
    (hp : b.contains p = true) (hq : b.contains q = true) :
    |q.x - p.x| ≤ 2 * b.w ∧ |q.y - p.y| ≤ 2 * b.h := by
  rw [contains_iff] at hp hq
  obtain ⟨p1, p2, p3, p4⟩ := hp
  obtain ⟨q1, q2, q3, q4⟩ := hq
  constructor <;> rw [abs_le] <;> constructor <;> linarith

/-- A full leaf that stores a point `q` differing from `p` accepts `insertar(p)` within a
recursion depth determined by how often the boundary must be halved to separate them. -/
theorem insertar_hoja_termina : ∀ (N : Nat) (b : Rect) (ps : List Point) (p q : Point),
    ps.length ≤ CAPACIDAD → (∀ x ∈ ps, b.contains x = true) → q ∈ ps →
    (2 * b.w < 2 ^ N * |q.x - p.x| ∨ 2 * b.h < 2 ^ N * |q.y - p.y|) →
    ∃ res, insertar (N + 1) (hoja b ps) p = some res := by
  intro N
  induction N with
  | zero =>
    intro b ps p q hlen hmem hq hsep
    by_cases hc : b.contains p = true
    · exfalso
      obtain ⟨hx, hy⟩ := abs_le_of_contains b p q hc (hmem q hq)
      simp only [pow_zero, one_mul] at hsep
      rcases hsep with h | h <;> linarith
    · exact ⟨_, insertar_fuera 0 _ p (by simpa using hc)⟩
  | succ N ih =>
    intro b ps p q hlen hmem hq hsep
    by_cases hc : b.contains p = true
    swap
    · exact ⟨_, insertar_fuera _ _ p (by simpa using hc)⟩
    by_cases hl : ps.length < CAPACIDAD
    · rw [insertar_hoja_lt _ b ps p hl]
      simp [hc]
    have hcr := contains_of_ruta b
    have hijo : ∀ (c : Rect) (k : Nat), c.w = b.w / 2 → c.h = b.h / 2 →
        (∀ x, ruta b x = k → c.contains x = true) →
        ∃ res, insertar (N + 1) (hoja c (ps.filter (fun x => ruta b x = k))) p = some res := by
      intro c k hw hh hck
      have hinv := inv_hoja_filtro b c ps k hlen hck
      by_cases hqk : q ∈ ps.filter (fun x => ruta b x = k)
      · refine ih c _ p q hinv.1 hinv.2 hqk ?_
        rw [hw, hh]
        rw [pow_succ] at hsep
        rcases hsep with h | h
        · left; linarith
        · right; linarith
      · have hlt : (ps.filter (fun x => ruta b x = k)).length < ps.length := by
          rw [List.length_filter_lt_length_iff_exists]
          refine ⟨q, hq, ?_⟩
          intro hk
          exact hqk (List.mem_filter.mpr ⟨hq, hk⟩)
        rw [insertar_hoja_lt _ c _ p (lt_of_lt_of_le hlt hlen)]
        split_ifs <;> exact ⟨_, rfl⟩
    unfold insertar
    simp only [boundary_hoja, hc, Bool.not_true, Bool.false_eq_true, ↓reduceIte, hl]
    rw [subdividir_eq N b ps hlen]
    simp only
    exact insertarRama_some _ _ _ _ _ _ _ p
      (hijo _ 0 rfl rfl (fun x => (hcr x).1)) (hijo _ 1 rfl rfl (fun x => (hcr x).2.1))
      (hijo _ 2 rfl rfl (fun x => (hcr x).2.2.1)) (hijo _ 3 rfl rfl (fun x => (hcr x).2.2.2))

theorem existe_cota (w d : ℚ) (hd : 0 < d) : ∃ N : Nat, 2 * w < 2 ^ N * d := by
  obtain ⟨n, hn⟩ := pow_unbounded_of_one_lt (2 * w / d) (one_lt_two : (1 : ℚ) < 2)
  exact ⟨n, by rwa [div_lt_iff₀ hd] at hn⟩

/-- A call `insertar(p)` completes on every tree that satisfies the invariant and stores
fewer than `CAPACIDAD` points equal to `p`. -/
theorem insertar_termina : ∀ (t : Quadtree) (p : Point),
    Inv t → (todos t).count p < CAPACIDAD → ∃ fuel res, insertar fuel t p = some res := by
  intro t
  induction t with
  | hoja b ps =>
    intro p hinv hcount
    obtain ⟨hlen, hmem⟩ := hinv
    simp only [todos] at hcount
    by_cases hl : ps.length < CAPACIDAD
    · refine ⟨1, ?_⟩
      rw [insertar_hoja_lt 0 b ps p hl]
      split_ifs <;> exact ⟨_, rfl⟩
    · have hne : ∃ q ∈ ps, q ≠ p := by
        by_contra hcon
        push_neg at hcon
        have : ps.count p = ps.length :=
          List.count_eq_length.mpr (fun x hx => (hcon x hx).symm)
        omega
      obtain ⟨q, hq, hqp⟩ := hne
      have hd : 0 < |q.x - p.x| ∨ 0 < |q.y - p.y| := by
        by_contra hcon
        push_neg at hcon
        apply hqp
        have hx : q.x - p.x = 0 := abs_eq_zero.mp (le_antisymm hcon.1 (abs_nonneg _))
        have hy : q.y - p.y = 0 := abs_eq_zero.mp (le_antisymm hcon.2 (abs_nonneg _))
        cases q; cases p
        simp only [Point.mk.injEq]
        simp only at hx hy
        exact ⟨by linarith, by linarith⟩
      rcases hd with hd | hd
      · obtain ⟨N, hN⟩ := existe_cota b.w _ hd
        exact ⟨N + 1, insertar_hoja_termina N b ps p q hlen hmem hq (Or.inl hN)⟩
      · obtain ⟨N, hN⟩ := existe_cota b.h _ hd
        exact ⟨N + 1, insertar_hoja_termina N b ps p q hlen hmem hq (Or.inr hN)⟩
  | rama b ps nw ne sw se ih1 ih2 ih3 ih4 =>
    intro p hinv hcount
    obtain ⟨_, _, _, _, _, i1, i2, i3, i4, _⟩ := hinv
    simp only [todos, List.count_append] at hcount
    obtain ⟨f1, ⟨res1, h1⟩⟩ := ih1 p i1 (by omega)
    obtain ⟨f2, ⟨res2, h2⟩⟩ := ih2 p i2 (by omega)
    obtain ⟨f3, ⟨res3, h3⟩⟩ := ih3 p i3 (by omega)
    obtain ⟨f4, ⟨res4, h4⟩⟩ := ih4 p i4 (by omega)
    refine ⟨max (max f1 f2) (max f3 f4) + 1, ?_⟩
    by_cases hc : b.contains p = true
    swap
    · exact ⟨_, insertar_fuera _ _ p (by simpa using hc)⟩
    unfold insertar
    simp only [boundary_rama, hc, Bool.not_true, Bool.false_eq_true, ↓reduceIte]
    exact insertarRama_some _ _ _ _ _ _ _ p
      ⟨_, insertar_mono f1 _ (by omega) _ _ _ h1⟩ ⟨_, insertar_mono f2 _ (by omega) _ _ _ h2⟩
      ⟨_, insertar_mono f3 _ (by omega) _ _ _ h3⟩ ⟨_, insertar_mono f4 _ (by omega) _ _ _ h4⟩


/-! ## Sequences of calls and the round trip -/

theorem count_todos (t : Quadtree) (q : Point) :
    (todos t).count q = Multiset.count q (contenido t) := by
  simp [contenido]

/-- A sequence of insertions completes when no coordinate pair would end up stored more
than `CAPACIDAD` times. -/
theorem insertarTodos_termina : ∀ (ps : List Point) (t : Quadtree),
    Inv t → (∀ q ∈ ps, (todos t).count q + ps.count q ≤ CAPACIDAD) →
    ∃ fuel res, insertarTodos fuel t ps = some res := by
  intro ps
  induction ps with
  | nil => intro t _ _; exact ⟨0, _, rfl⟩
  | cons p ps ih =>
    intro t hinv hcount
    have hp := hcount p (List.mem_cons_self _ _)
    rw [List.count_cons_self] at hp
    obtain ⟨f1, ⟨r, t1⟩, h1⟩ := insertar_termina t p hinv (by omega)
    have P := insertar_post f1 t p r t1 hinv h1
    have hle : ∀ q, (todos t1).count q ≤ (todos t).count q + (if p = q then 1 else 0) := by
      intro q
      rw [count_todos, count_todos]
      cases r with
      | false => rw [P.marco rfl]; omega
      | true =>
        rw [P.cont rfl, Multiset.count_cons]
        by_cases hpq : p = q
        · subst hpq; simp
        · have : ¬q = p := fun e => hpq e.symm
          simp [hpq, this]
    obtain ⟨f2, res2, h2⟩ := ih t1 P.inv (by
      intro q hq
      have h := hcount q (List.mem_cons_of_mem _ hq)
      have h3 := hle q
      rw [List.count_cons] at h
      by_cases hpq : p = q
      · subst hpq
        simp only [beq_self_eq_true, ↓reduceIte] at h h3
        omega
      · have : (p == q) = false := by simpa using hpq
        simp only [this, hpq, ↓reduceIte, Bool.false_eq_true] at h h3
        omega)
    refine ⟨max f1 f2, ?_⟩
    unfold insertarTodos
    rw [insertar_mono f1 _ (le_max_left _ _) t p _ h1]
    simp only
    rw [insertarTodos_mono f2 _ (le_max_right _ _) ps t1 _ h2]
    exact ⟨_, rfl⟩

theorem erase_contenido_eliminar (t : Quadtree) (p : Point) (hinv : Inv t) :
    contenido (eliminar t p).2 = (contenido t).erase p := by
  have P := eliminar_post t p hinv
  cases hr : (eliminar t p).1 with
  | true => rw [P.cont hr, Multiset.erase_cons_head]
  | false =>
    have hp : p ∉ contenido t := by
      rw [← mem_todos_iff, ← P.ret, hr]
      simp
    rw [P.marco hr, Multiset.erase_of_not_mem hp]

theorem eliminarTodos_post : ∀ (qs : List Point) (t : Quadtree), Inv t →
    Inv (eliminarTodos t qs) ∧ (eliminarTodos t qs).boundary = t.boundary ∧
      contenido (eliminarTodos t qs) = contenido t - (qs : Multiset Point) := by
  intro qs
  induction qs with
  | nil => intro t hinv; exact ⟨hinv, rfl, by simp [eliminarTodos]⟩
  | cons q qs ih =>
    intro t hinv
    have P := eliminar_post t q hinv
    obtain ⟨j1, j2, j3⟩ := ih _ P.inv
    refine ⟨j1, j2.trans P.borde, ?_⟩
    simp only [eliminarTodos]
    rw [j3, erase_contenido_eliminar t q hinv, ← Multiset.cons_coe, Multiset.sub_cons]

theorem aceptados_sublist : ∀ (ps : List Point) (rs : List Bool),
    (aceptados ps rs).Sublist ps := by
  intro ps
  induction ps with
  | nil => intro rs; simp [aceptados]
  | cons p ps ih =>
    intro rs
    cases rs with
    | nil => simp [aceptados]
    | cons r rs =>
      cases r with
      | true => simpa [aceptados] using ih rs
      | false => simpa [aceptados] using (ih rs).cons p

theorem eq_vacio_of_contenido_zero (t : Quadtree) (hinv : Inv t) (h : contenido t = 0) :
    t = vacio t.boundary := by
  cases t with
  | hoja b ps =>
    simp only [contenido_hoja, Multiset.coe_eq_zero] at h
    rw [h]
    rfl
  | rama b ps nw ne sw se =>
    exfalso
    have hcard := hinv.2.2.2.2.2.2.2.2.2
    rw [length_hijos, ← contenido_rama b ps, h] at hcard
    simp at hcard

/-- C8. For every root rectangle and pairwise-distinct points, inserting all of them into
an empty tree completes (for every large enough recursion budget), and deleting each of
them once, in any order, leaves exactly the empty single-leaf tree over that rectangle. -/
theorem ida_y_vuelta (region : Rect) (ps qs : List Point) (hnd : ps.Nodup)
    (hperm : qs.Perm ps) :
    ∃ n, ∀ fuel, n ≤ fuel → ∃ rs t,
      insertarTodos fuel (vacio region) ps = some (rs, t) ∧
        eliminarTodos t qs = vacio region := by
  obtain ⟨n, ⟨rs, t⟩, h⟩ := insertarTodos_termina ps (vacio region) (inv_vacio region) (by
    intro q _
    have : ps.count q ≤ 1 := List.nodup_iff_count_le_one.mp hnd q
    simp only [vacio, todos, List.count_nil, CAPACIDAD]
    omega)
  refine ⟨n, fun fuel hf => ⟨rs, t, insertarTodos_mono n fuel hf ps _ _ h, ?_⟩⟩
  obtain ⟨hinv, hb, hc⟩ := insertarTodos_post n ps (vacio region) rs t (inv_vacio region) h
  obtain ⟨j1, j2, j3⟩ := eliminarTodos_post qs t hinv
  have hz : contenido (eliminarTodos t qs) = 0 := by
    rw [j3, hc]
    have : contenido (vacio region) = 0 := rfl
    rw [this, zero_add, tsub_eq_zero_iff_le, Multiset.coe_eq_coe.mpr hperm]
    exact Multiset.coe_le.mpr (aceptados_sublist ps rs).subperm
  have := eq_vacio_of_contenido_zero _ j1 hz
  rw [j2, hb] at this
  exact this

/-- C8 at the rectangle and points of `main`, deleted in reverse order. -/
theorem ida_y_vuelta_witness :
    puntosMain.Nodup ∧ puntosMain.reverse.Perm puntosMain ∧
      ∃ n, ∀ fuel, n ≤ fuel → ∃ rs t,
        insertarTodos fuel (vacio area) puntosMain = some (rs, t) ∧
          eliminarTodos t puntosMain.reverse = vacio area :=
  ⟨by decide!, List.reverse_perm puntosMain,
    ida_y_vuelta area puntosMain puntosMain.reverse (by decide!) (List.reverse_perm puntosMain)⟩


/-! ## Nodes of a tree -/

theorem mem_nodos_self (t : Quadtree) : t ∈ nodos t := by
  cases t <;> simp [nodos]

theorem inv_of_mem_nodos : ∀ (t n : Quadtree), Inv t → n ∈ nodos t → Inv n := by
  intro t
  induction t with
  | hoja b ps =>
    intro n hinv hn
    simp only [nodos, List.mem_singleton] at hn
    rw [hn]
    exact hinv
  | rama b ps nw ne sw se ih1 ih2 ih3 ih4 =>
    intro n hinv hn
    simp only [nodos, List.mem_cons, List.mem_append] at hn
    obtain ⟨_, _, _, _, _, i1, i2, i3, i4, _⟩ := id hinv
    rcases hn with rfl | ((hn | hn) | hn) | hn
    · exact hinv
    · exact ih1 n i1 hn
    · exact ih2 n i2 hn
    · exact ih3 n i3 hn
    · exact ih4 n i4 hn

theorem almacenados_eq_todos : ∀ (t : Quadtree), Inv t → almacenados t = todos t := by
  intro t
  induction t with
  | hoja b ps => intro _; rfl
  | rama b ps nw ne sw se ih1 ih2 ih3 ih4 =>
    intro hinv
    obtain ⟨hps, _, _, _, _, i1, i2, i3, i4, _⟩ := hinv
    simp only [almacenados, todos, ih1 i1, ih2 i2, ih3 i3, ih4 i4, hps, List.nil_append]

theorem dentro_de_inv (t : Quadtree) (hinv : Inv t) :
    ∀ n ∈ nodos t, ∀ q ∈ almacenados n, n.boundary.contains q = true := by
  intro n hn q hq
  have hi := inv_of_mem_nodos t n hinv hn
  rw [almacenados_eq_todos n hi] at hq
  exact inv_contains n hi q hq

/-- C11. Invariant I2: in every reachable tree each point stored in the subtree of a node
lies inside that node's boundary, so a stored point is inside the boundary of the node that
stores it and of every ancestor; the trees after a completed `insertar` and after an
`eliminar` satisfy it again. -/
theorem puntos_dentro_de_ancestros (t : Quadtree) (h : Alcanzable t) :
    (∀ n ∈ nodos t, ∀ q ∈ almacenados n, n.boundary.contains q = true) ∧
      (∀ fuel p r t1, insertar fuel t p = some (r, t1) →
        ∀ n ∈ nodos t1, ∀ q ∈ almacenados n, n.boundary.contains q = true) ∧
      (∀ p, ∀ n ∈ nodos (eliminar t p).2, ∀ q ∈ almacenados n, n.boundary.contains q = true) := by
  refine ⟨dentro_de_inv t (alcanzable_inv t h), ?_, ?_⟩
  · intro fuel p r t1 hi
    exact dentro_de_inv t1 (alcanzable_inv t1 (Alcanzable.trasInsertar fuel t p r t1 h hi))
  · intro p
    exact dentro_de_inv _ (alcanzable_inv _ (Alcanzable.trasEliminar t p h))

/-- C11 at the tree of `main`. -/
theorem puntos_dentro_de_ancestros_witness :
    Alcanzable arbolMain ∧
      ((∀ n ∈ nodos arbolMain, ∀ q ∈ almacenados n, n.boundary.contains q = true) ∧
        (∀ fuel p r t1, insertar fuel arbolMain p = some (r, t1) →
          ∀ n ∈ nodos t1, ∀ q ∈ almacenados n, n.boundary.contains q = true) ∧
        (∀ p, ∀ n ∈ nodos (eliminar arbolMain p).2, ∀ q ∈ almacenados n,
          n.boundary.contains q = true)) :=
  ⟨alcanzable_arbolMain, puntos_dentro_de_ancestros arbolMain alcanzable_arbolMain⟩

/-- C18. In every reachable tree each subdivided node has more than `CAPACIDAD` points
stored in its subtree; hence a reachable tree storing at most `CAPACIDAD` points is a
single leaf. -/
theorem rama_mas_de_capacidad (t : Quadtree) (h : Alcanzable t) :
    (∀ n ∈ nodos t, n.dividido = true → CAPACIDAD < (almacenados n).length) ∧
      ((almacenados t).length ≤ CAPACIDAD → ∃ ps, t = hoja t.boundary ps) := by
  have hinv := alcanzable_inv t h
  have key : ∀ n ∈ nodos t, n.dividido = true → CAPACIDAD < (almacenados n).length := by
    intro n hn hd
    have hi := inv_of_mem_nodos t n hinv hn
    rw [almacenados_eq_todos n hi]
    exact card_of_dividido n hi hd
  refine ⟨key, ?_⟩
  intro hle
  cases t with
  | hoja b ps => exact ⟨ps, rfl⟩
  | rama b ps nw ne sw se =>
    have := key _ (mem_nodos_self _) rfl
    omega

/-- C18 at the tree of `main`. -/
theorem rama_mas_de_capacidad_witness :
    Alcanzable arbolMain ∧
      ((∀ n ∈ nodos arbolMain, n.dividido = true → CAPACIDAD < (almacenados n).length) ∧
        ((almacenados arbolMain).length ≤ CAPACIDAD →
          ∃ ps, arbolMain = hoja arbolMain.boundary ps)) :=
  ⟨alcanzable_arbolMain, rama_mas_de_capacidad arbolMain alcanzable_arbolMain⟩

/-- C19. On a reachable tree that stores fewer than `CAPACIDAD` points with the coordinates
of `p`, `insertar(p)` completes: every large enough recursion budget yields its result,
whatever the distance between `p` and the other stored points. -/
theorem insertar_completa_no_coincidente (t : Quadtree) (p : Point) (h : Alcanzable t)
    (hc : (todos t).count p < CAPACIDAD) :
    ∃ n, ∀ fuel, n ≤ fuel → ∃ r t1, insertar fuel t p = some (r, t1) := by
  obtain ⟨n, ⟨r, t1⟩, hn⟩ := insertar_termina t p (alcanzable_inv t h) hc
  exact ⟨n, fun fuel hf => ⟨r, t1, insertar_mono n fuel hf t p _ hn⟩⟩

/-- C19 at the tree of `main` and the point `(2, 3)`, of which it stores one copy in a
leaf of three points. -/
theorem insertar_completa_no_coincidente_witness :
    Alcanzable arbolMain ∧ (todos arbolMain).count ⟨2, 3⟩ < CAPACIDAD ∧
      ∃ n, ∀ fuel, n ≤ fuel → ∃ r t1, insertar fuel arbolMain ⟨2, 3⟩ = some (r, t1) :=
  ⟨alcanzable_arbolMain, by decide!,
    insertar_completa_no_coincidente arbolMain ⟨2, 3⟩ alcanzable_arbolMain (by decide!)⟩


/-! ## First-match routing -/

theorem ruta_eq_iff (b : Rect) (q : Point) :
    (ruta b q = 0 ↔ (hijosNuevos b).noroeste.boundary.contains q = true) ∧
    (ruta b q = 1 ↔ (hijosNuevos b).noroeste.boundary.contains q = false ∧
      (hijosNuevos b).noreste.boundary.contains q = true) ∧
    (ruta b q = 2 ↔ (hijosNuevos b).noroeste.boundary.contains q = false ∧
      (hijosNuevos b).noreste.boundary.contains q = false ∧
      (hijosNuevos b).suroeste.boundary.contains q = true) ∧
    (ruta b q = 3 ↔ (hijosNuevos b).noroeste.boundary.contains q = false ∧
      (hijosNuevos b).noreste.boundary.contains q = false ∧
      (hijosNuevos b).suroeste.boundary.contains q = false ∧
      (hijosNuevos b).sureste.boundary.contains q = true) := by
  unfold ruta
  cases (hijosNuevos b).noroeste.boundary.contains q <;>
    cases (hijosNuevos b).noreste.boundary.contains q <;>
    cases (hijosNuevos b).suroeste.boundary.contains q <;>
    cases (hijosNuevos b).sureste.boundary.contains q <;>
    simp

/-- C12. `subdividir` on a leaf with boundary `(x, y, w, h)` holding at most `CAPACIDAD`
points, all inside the boundary, completes with any positive budget and yields a subdivided
node without own points whose children are leaves over the four quadrants; each child
holds, in their original order, the points whose first containing quadrant (in the order
NW, NE, SW, SE) it is, and together the four lists hold every former point exactly once. -/
theorem subdividir_hoja (b : Rect) (ps : List Point) (n : Nat)
    (hlen : ps.length ≤ CAPACIDAD) (hin : ∀ q ∈ ps, b.contains q = true) :
    subdividir (insertar (n + 1)) b ps =
        some (rama b []
          (hoja ⟨b.x - b.w / 2, b.y + b.h / 2, b.w / 2, b.h / 2⟩
            (ps.filter (fun q =>
              Rect.contains ⟨b.x - b.w / 2, b.y + b.h / 2, b.w / 2, b.h / 2⟩ q)))
          (hoja ⟨b.x + b.w / 2, b.y + b.h / 2, b.w / 2, b.h / 2⟩
            (ps.filter (fun q =>
              !Rect.contains ⟨b.x - b.w / 2, b.y + b.h / 2, b.w / 2, b.h / 2⟩ q &&
                Rect.contains ⟨b.x + b.w / 2, b.y + b.h / 2, b.w / 2, b.h / 2⟩ q)))
          (hoja ⟨b.x - b.w / 2, b.y - b.h / 2, b.w / 2, b.h / 2⟩
            (ps.filter (fun q =>
              !Rect.contains ⟨b.x - b.w / 2, b.y + b.h / 2, b.w / 2, b.h / 2⟩ q &&
                !Rect.contains ⟨b.x + b.w / 2, b.y + b.h / 2, b.w / 2, b.h / 2⟩ q &&
                Rect.contains ⟨b.x - b.w / 2, b.y - b.h / 2, b.w / 2, b.h / 2⟩ q)))
          (hoja ⟨b.x + b.w / 2, b.y - b.h / 2, b.w / 2, b.h / 2⟩
            (ps.filter (fun q =>
              !Rect.contains ⟨b.x - b.w / 2, b.y + b.h / 2, b.w / 2, b.h / 2⟩ q &&
                !Rect.contains ⟨b.x + b.w / 2, b.y + b.h / 2, b.w / 2, b.h / 2⟩ q &&
                !Rect.contains ⟨b.x - b.w / 2, b.y - b.h / 2, b.w / 2, b.h / 2⟩ q &&
                Rect.contains ⟨b.x + b.w / 2, b.y - b.h / 2, b.w / 2, b.h / 2⟩ q)))) ∧
      ((ps.filter (fun q =>
            Rect.contains ⟨b.x - b.w / 2, b.y + b.h / 2, b.w / 2, b.h / 2⟩ q) : Multiset Point) +
          (ps.filter (fun q =>
            !Rect.contains ⟨b.x - b.w / 2, b.y + b.h / 2, b.w / 2, b.h / 2⟩ q &&
              Rect.contains ⟨b.x + b.w / 2, b.y + b.h / 2, b.w / 2, b.h / 2⟩ q) :
            Multiset Point) +
          (ps.filter (fun q =>
            !Rect.contains ⟨b.x - b.w / 2, b.y + b.h / 2, b.w / 2, b.h / 2⟩ q &&
              !Rect.contains ⟨b.x + b.w / 2, b.y + b.h / 2, b.w / 2, b.h / 2⟩ q &&
              Rect.contains ⟨b.x - b.w / 2, b.y - b.h / 2, b.w / 2, b.h / 2⟩ q) :
            Multiset Point) +
          (ps.filter (fun q =>
            !Rect.contains ⟨b.x - b.w / 2, b.y + b.h / 2, b.w / 2, b.h / 2⟩ q &&
              !Rect.contains ⟨b.x + b.w / 2, b.y + b.h / 2, b.w / 2, b.h / 2⟩ q &&
              !Rect.contains ⟨b.x - b.w / 2, b.y - b.h / 2, b.w / 2, b.h / 2⟩ q &&
              Rect.contains ⟨b.x + b.w / 2, b.y - b.h / 2, b.w / 2, b.h / 2⟩ q) :
            Multiset Point) =
        (ps : Multiset Point)) := by
  have hr := ruta_eq_iff b
  have f0 : ps.filter (fun q =>
      Rect.contains ⟨b.x - b.w / 2, b.y + b.h / 2, b.w / 2, b.h / 2⟩ q) =
      ps.filter (fun q => ruta b q = 0) := by
    apply List.filter_congr
    intro q _
    have := (hr q).1
    simp only [hijosNuevos, boundary_hoja] at this
    cases hq : Rect.contains ⟨b.x - b.w / 2, b.y + b.h / 2, b.w / 2, b.h / 2⟩ q <;>
      simp_all
  have f1 : ps.filter (fun q =>
      !Rect.contains ⟨b.x - b.w / 2, b.y + b.h / 2, b.w / 2, b.h / 2⟩ q &&
        Rect.contains ⟨b.x + b.w / 2, b.y + b.h / 2, b.w / 2, b.h / 2⟩ q) =
      ps.filter (fun q => ruta b q = 1) := by
    apply List.filter_congr
    intro q _
    have := (hr q).2.1
    simp only [hijosNuevos, boundary_hoja] at this
    by_cases h1 : ruta b q = 1
    · simp [h1, this.mp h1]
    · simp only [h1, decide_False, Bool.and_eq_false_imp, Bool.not_eq_true',
        Bool.and_eq_true]
      intro h
      by_contra hcon
      exact h1 (this.mpr ⟨h, by simpa using hcon⟩)
  have f2 : ps.filter (fun q =>
      !Rect.contains ⟨b.x - b.w / 2, b.y + b.h / 2, b.w / 2, b.h / 2⟩ q &&
        !Rect.contains ⟨b.x + b.w / 2, b.y + b.h / 2, b.w / 2, b.h / 2⟩ q &&
        Rect.contains ⟨b.x - b.w / 2, b.y - b.h / 2, b.w / 2, b.h / 2⟩ q) =
      ps.filter (fun q => ruta b q = 2) := by
    apply List.filter_congr
    intro q _
    have := (hr q).2.2.1
    simp only [hijosNuevos, boundary_hoja] at this
    by_cases h1 : ruta b q = 2
    · simp [h1, this.mp h1]
    · simp only [h1, decide_False, Bool.and_eq_false_imp, Bool.not_eq_true',
        Bool.and_eq_true]
      rintro ⟨h, k2⟩
      by_contra hcon
      exact h1 (this.mpr ⟨h, k2, by simpa using hcon⟩)
  have f3 : ps.filter (fun q =>
      !Rect.contains ⟨b.x - b.w / 2, b.y + b.h / 2, b.w / 2, b.h / 2⟩ q &&
        !Rect.contains ⟨b.x + b.w / 2, b.y + b.h / 2, b.w / 2, b.h / 2⟩ q &&
        !Rect.contains ⟨b.x - b.w / 2, b.y - b.h / 2, b.w / 2, b.h / 2⟩ q &&
        Rect.contains ⟨b.x + b.w / 2, b.y - b.h / 2, b.w / 2, b.h / 2⟩ q) =
      ps.filter (fun q => ruta b q = 3) := by
    apply List.filter_congr
    intro q _
    have := (hr q).2.2.2
    simp only [hijosNuevos, boundary_hoja] at this
    by_cases h1 : ruta b q = 3
    · simp [h1, this.mp h1]
    · simp only [h1, decide_False, Bool.and_eq_false_imp, Bool.not_eq_true',
        Bool.and_eq_true]
      rintro ⟨⟨h, k2⟩, k3⟩
      by_contra hcon
      exact h1 (this.mpr ⟨h, k2, k3, by simpa using hcon⟩)
  rw [f0, f1, f2, f3]
  exact ⟨subdividir_eq n b ps hlen,
    particion_ruta b ps (fun q hq => ruta_lt_of_contains b q (hin q hq))⟩

/-- C12 at the root leaf of `main` when its fifth insertion subdivides it. -/
theorem subdividir_hoja_witness :
    subdividir (insertar 1) area [⟨1, 1⟩, ⟨2, 5⟩, ⟨-4, 3⟩, ⟨6, -2⟩] =
      some (rama area [] (hoja ⟨-4, 4, 4, 4⟩ [⟨-4, 3⟩]) (hoja ⟨4, 4, 4, 4⟩ [⟨1, 1⟩, ⟨2, 5⟩])
        (hoja ⟨-4, -4, 4, 4⟩ []) (hoja ⟨4, -4, 4, 4⟩ [⟨6, -2⟩])) :=
  (subdividir_hoja area [⟨1, 1⟩, ⟨2, 5⟩, ⟨-4, 3⟩, ⟨6, -2⟩] 0 (by decide) (by decide!)).1.trans
    (by decide!)


/-- Which child the chain changes: the first, in the order of the source, whose boundary
contains `p`; when none does, nothing changes and the chain returns false. -/
theorem insertarHijos_primero (ins : Quadtree → Point → Option (Bool × Quadtree))
    (hs : Hijos) (p : Point) (r : Bool) (hs1 : Hijos)
    (h1 : ∀ r c, ins hs.noroeste p = some (r, c) → InsPost hs.noroeste p r c)
    (h2 : ∀ r c, ins hs.noreste p = some (r, c) → InsPost hs.noreste p r c)
    (h3 : ∀ r c, ins hs.suroeste p = some (r, c) → InsPost hs.suroeste p r c)
    (h4 : ∀ r c, ins hs.sureste p = some (r, c) → InsPost hs.sureste p r c)
    (h : insertarHijos ins hs p = some (r, hs1)) :
    (hs.noroeste.boundary.contains p = true ∧ r = true ∧
        ∃ c, ins hs.noroeste p = some (true, c) ∧
          hs1 = ⟨c, hs.noreste, hs.suroeste, hs.sureste⟩) ∨
      (hs.noroeste.boundary.contains p = false ∧ hs.noreste.boundary.contains p = true ∧
        r = true ∧
        ∃ c, ins hs.noreste p = some (true, c) ∧
          hs1 = ⟨hs.noroeste, c, hs.suroeste, hs.sureste⟩) ∨
      (hs.noroeste.boundary.contains p = false ∧ hs.noreste.boundary.contains p = false ∧
        hs.suroeste.boundary.contains p = true ∧ r = true ∧
        ∃ c, ins hs.suroeste p = some (true, c) ∧
          hs1 = ⟨hs.noroeste, hs.noreste, c, hs.sureste⟩) ∨
      (hs.noroeste.boundary.contains p = false ∧ hs.noreste.boundary.contains p = false ∧
        hs.suroeste.boundary.contains p = false ∧ hs.sureste.boundary.contains p = true ∧
        r = true ∧
        ∃ c, ins hs.sureste p = some (true, c) ∧
          hs1 = ⟨hs.noroeste, hs.noreste, hs.suroeste, c⟩) ∨
      (hs.noroeste.boundary.contains p = false ∧ hs.noreste.boundary.contains p = false ∧
        hs.suroeste.boundary.contains p = false ∧ hs.sureste.boundary.contains p = false ∧
        r = false ∧ hs1 = hs) := by
  obtain ⟨nw, ne, sw, se⟩ := hs
  simp only at h1 h2 h3 h4 ⊢
  rcases e1 : ins nw p with _ | ⟨_ | _, c1⟩
  · simp [insertarHijos, e1] at h
  · have P1 := h1 _ _ e1
    have k1 := P1.marco rfl
    subst k1
    rcases e2 : ins ne p with _ | ⟨_ | _, c2⟩
    · simp [insertarHijos, e1, e2] at h
    · have P2 := h2 _ _ e2
      have k2 := P2.marco rfl
      subst k2
      rcases e3 : ins sw p with _ | ⟨_ | _, c3⟩
      · simp [insertarHijos, e1, e2, e3] at h
      · have P3 := h3 _ _ e3
        have k3 := P3.marco rfl
        subst k3
        rcases e4 : ins se p with _ | ⟨r4, c4⟩
        · simp [insertarHijos, e1, e2, e3, e4] at h
        · have P4 := h4 _ _ e4
          simp only [insertarHijos, e1, e2, e3, e4, Option.some.injEq, Prod.mk.injEq] at h
          obtain ⟨rfl, rfl⟩ := h
          cases r4 with
          | true =>
            exact Or.inr (Or.inr (Or.inr (Or.inl
              ⟨P1.ret.symm, P2.ret.symm, P3.ret.symm, P4.ret.symm, rfl, c4, rfl, rfl⟩)))
          | false =>
            have k4 := P4.marco rfl
            subst k4
            exact Or.inr (Or.inr (Or.inr (Or.inr
              ⟨P1.ret.symm, P2.ret.symm, P3.ret.symm, P4.ret.symm, rfl, rfl⟩)))
      · have P3 := h3 _ _ e3
        simp only [insertarHijos, e1, e2, e3, Option.some.injEq, Prod.mk.injEq] at h
        obtain ⟨rfl, rfl⟩ := h
        exact Or.inr (Or.inr (Or.inl ⟨P1.ret.symm, P2.ret.symm, P3.ret.symm, rfl, c3, rfl, rfl⟩))
    · have P2 := h2 _ _ e2
      simp only [insertarHijos, e1, e2, Option.some.injEq, Prod.mk.injEq] at h
      obtain ⟨rfl, rfl⟩ := h
      exact Or.inr (Or.inl ⟨P1.ret.symm, P2.ret.symm, rfl, c2, rfl, rfl⟩)
  · have P1 := h1 _ _ e1
    simp only [insertarHijos, e1, Option.some.injEq, Prod.mk.injEq] at h
    obtain ⟨rfl, rfl⟩ := h
    exact Or.inl ⟨P1.ret.symm, rfl, c1, rfl, rfl⟩

/-- The chain of `insertar` on a subdivided node whose children satisfy the invariant:
the case analysis of `insertarHijos_primero` with the recursive call made explicit. -/
theorem insertar_rama_primero (fuel : Nat) (b : Rect) (ps : List Point)
    (nw ne sw se : Quadtree) (p : Point) (r : Bool) (t1 : Quadtree)
    (i1 : Inv nw) (i2 : Inv ne) (i3 : Inv sw) (i4 : Inv se)
    (hc : b.contains p = true)
    (hi : insertar (fuel + 1) (rama b ps nw ne sw se) p = some (r, t1)) :
    (nw.boundary.contains p = true ∧ r = true ∧
        ∃ c, insertar fuel nw p = some (true, c) ∧ t1 = rama b ps c ne sw se) ∨
      (nw.boundary.contains p = false ∧ ne.boundary.contains p = true ∧ r = true ∧
        ∃ c, insertar fuel ne p = some (true, c) ∧ t1 = rama b ps nw c sw se) ∨
      (nw.boundary.contains p = false ∧ ne.boundary.contains p = false ∧
        sw.boundary.contains p = true ∧ r = true ∧
        ∃ c, insertar fuel sw p = some (true, c) ∧ t1 = rama b ps nw ne c se) ∨
      (nw.boundary.contains p = false ∧ ne.boundary.contains p = false ∧
        sw.boundary.contains p = false ∧ se.boundary.contains p = true ∧ r = true ∧
        ∃ c, insertar fuel se p = some (true, c) ∧ t1 = rama b ps nw ne sw c) ∨
      (nw.boundary.contains p = false ∧ ne.boundary.contains p = false ∧
        sw.boundary.contains p = false ∧ se.boundary.contains p = false ∧
        r = false ∧ t1 = rama b ps nw ne sw se) := by
  unfold insertar at hi
  simp only [boundary_rama, hc, Bool.not_true, Bool.false_eq_true, ↓reduceIte,
    insertarRama] at hi
  rcases e : insertarHijos (insertar fuel) ⟨nw, ne, sw, se⟩ p with _ | ⟨r1, hs1⟩
  · simp [e] at hi
  · simp only [e, Option.some.injEq, Prod.mk.injEq] at hi
    obtain ⟨rfl, rfl⟩ := hi
    have H := insertarHijos_primero (insertar fuel) ⟨nw, ne, sw, se⟩ p r1 hs1
      (fun r c hh => insertar_post fuel _ p r c i1 hh)
      (fun r c hh => insertar_post fuel _ p r c i2 hh)
      (fun r c hh => insertar_post fuel _ p r c i3 hh)
      (fun r c hh => insertar_post fuel _ p r c i4 hh) e
    simp only at H
    rcases H with ⟨a, hr, c, hcc, rfl⟩ | ⟨a1, a, hr, c, hcc, rfl⟩ | ⟨a1, a2, a, hr, c, hcc, rfl⟩ |
      ⟨a1, a2, a3, a, hr, c, hcc, rfl⟩ | ⟨a1, a2, a3, a4, hr, rfl⟩
    · exact Or.inl ⟨a, hr, c, hcc, rfl⟩
    · exact Or.inr (Or.inl ⟨a1, a, hr, c, hcc, rfl⟩)
    · exact Or.inr (Or.inr (Or.inl ⟨a1, a2, a, hr, c, hcc, rfl⟩))
    · exact Or.inr (Or.inr (Or.inr (Or.inl ⟨a1, a2, a3, a, hr, c, hcc, rfl⟩)))
    · exact Or.inr (Or.inr (Or.inr (Or.inr ⟨a1, a2, a3, a4, hr, rfl⟩)))


theorem arbolMain_eq : arbolMain = rama area [] hijoNO hijoNE hijoSO hijoSE := rfl

theorem fusionar_eq_especificada (b : Rect) (c1 c2 c3 c4 : Quadtree) :
    fusionar b [] c1 c2 c3 c4 = fusionEspecificada b [] c1 c2 c3 c4 := by
  rw [fusionar_eq]
  unfold fusionEspecificada
  simp only [List.nil_append, and_assoc]

/-- C14. Merge step: when `eliminar(p)` succeeds on a subdivided node of a reachable tree,
it succeeded in one child, and the node afterwards is what the specified merge step gives
for that child after the deletion and the other three children unchanged: a leaf holding
the concatenation of the four children's lists when all four are leaves with combined
count at most `CAPACIDAD`, else the subdivided node with its own (empty) storage. -/
theorem eliminar_fusion (t : Quadtree) (h : Alcanzable t)
    (b : Rect) (ps : List Point) (nw ne sw se : Quadtree)
    (hn : rama b ps nw ne sw se ∈ nodos t) (p : Point)
    (hr : (eliminar (rama b ps nw ne sw se) p).1 = true) :
    ps = [] ∧ FusionTrasEliminar b ps nw ne sw se p (eliminar (rama b ps nw ne sw se) p).2 := by
  have hinv := inv_of_mem_nodos t _ (alcanzable_inv t h) hn
  obtain ⟨hps, _, _, _, _, i1, i2, i3, i4, _⟩ := hinv
  subst hps
  refine ⟨rfl, ?_⟩
  have P1 := eliminar_post nw p i1
  have P2 := eliminar_post ne p i2
  have P3 := eliminar_post sw p i3
  have P4 := eliminar_post se p i4
  unfold eliminar at hr ⊢
  by_cases hc : b.contains p = true
  swap
  · simp only [Bool.not_eq_true] at hc
    simp [hc] at hr
  simp only [hc, Bool.not_true, Bool.false_eq_true, ↓reduceIte] at hr ⊢
  by_cases r1 : (eliminar nw p).1 = true
  · simp only [r1, ↓reduceIte]
    exact Or.inl ⟨r1, fusionar_eq_especificada _ _ _ _ _⟩
  have k1 := P1.marco (by simpa using r1)
  simp only [r1, ↓reduceIte, Bool.false_eq_true, k1] at hr ⊢
  by_cases r2 : (eliminar ne p).1 = true
  · simp only [r2, ↓reduceIte]
    exact Or.inr (Or.inl ⟨by simpa using r1, r2, fusionar_eq_especificada _ _ _ _ _⟩)
  have k2 := P2.marco (by simpa using r2)
  simp only [r2, ↓reduceIte, Bool.false_eq_true, k2] at hr ⊢
  by_cases r3 : (eliminar sw p).1 = true
  · simp only [r3, ↓reduceIte]
    exact Or.inr (Or.inr (Or.inl
      ⟨by simpa using r1, by simpa using r2, r3, fusionar_eq_especificada _ _ _ _ _⟩))
  have k3 := P3.marco (by simpa using r3)
  simp only [r3, ↓reduceIte, Bool.false_eq_true, k3] at hr ⊢
  by_cases r4 : (eliminar se p).1 = true
  · simp only [r4, ↓reduceIte]
    exact Or.inr (Or.inr (Or.inr
      ⟨by simpa using r1, by simpa using r2, by simpa using r3, r4,
        fusionar_eq_especificada _ _ _ _ _⟩))
  simp [r4] at hr

/-- C14 at the north-east child of the root of `main` and the deletion of `(3, 3)`, after
which its four leaves hold four points and merge. -/
theorem eliminar_fusion_witness :
    (eliminar hijoNE ⟨3, 3⟩).2 = hoja ⟨4, 4, 4, 4⟩ [⟨2, 5⟩, ⟨7, 6⟩, ⟨1, 1⟩, ⟨2, 3⟩] ∧
      (([] : List Point) = [] ∧
        FusionTrasEliminar ⟨4, 4, 4, 4⟩ [] nietoNO nietoNE nietoSO nietoSE ⟨3, 3⟩
          (eliminar (rama ⟨4, 4, 4, 4⟩ [] nietoNO nietoNE nietoSO nietoSE) ⟨3, 3⟩).2) :=
  ⟨by decide!,
    eliminar_fusion arbolMain alcanzable_arbolMain ⟨4, 4, 4, 4⟩ [] nietoNO nietoNE nietoSO
      nietoSE (by decide!) ⟨3, 3⟩ (by decide!)⟩


/-! ## Coincident points -/

/-- Replacing the children of a canonically placed node by children over the same
boundaries whose points are old points of the same child, or a new point `p` routed by
first match, keeps the node canonically placed. -/
theorem canonico_reemplazo (b : Rect) (ps : List Point) (n1 n2 n3 n4 m1 m2 m3 m4 : Quadtree)
    (p : Point) (hc : Canonico (rama b ps n1 n2 n3 n4))
    (e1 : m1.boundary = n1.boundary) (e2 : m2.boundary = n2.boundary)
    (e3 : m3.boundary = n3.boundary) (e4 : m4.boundary = n4.boundary)
    (s1 : ∀ q ∈ todos m1, q ∈ todos n1 ∨ (q = p ∧ n1.boundary.contains p = true))
    (s2 : ∀ q ∈ todos m2, q ∈ todos n2 ∨
      (q = p ∧ n1.boundary.contains p = false ∧ n2.boundary.contains p = true))
    (s3 : ∀ q ∈ todos m3, q ∈ todos n3 ∨
      (q = p ∧ n1.boundary.contains p = false ∧ n2.boundary.contains p = false ∧
        n3.boundary.contains p = true))
    (s4 : ∀ q ∈ todos m4, q ∈ todos n4 ∨
      (q = p ∧ n1.boundary.contains p = false ∧ n2.boundary.contains p = false ∧
        n3.boundary.contains p = false ∧ n4.boundary.contains p = true))
    (c1 : Canonico m1) (c2 : Canonico m2) (c3 : Canonico m3) (c4 : Canonico m4) :
    Canonico (rama b ps m1 m2 m3 m4) := by
  obtain ⟨k1, k2, k3, k4, _, _, _, _⟩ := hc
  refine ⟨?_, ?_, ?_, ?_, c1, c2, c3, c4⟩
  · intro q hq
    rw [e1]
    rcases s1 q hq with h | ⟨rfl, h⟩
    · exact k1 q h
    · exact h
  · intro q hq
    rw [e1, e2]
    rcases s2 q hq with h | ⟨rfl, h⟩
    · exact k2 q h
    · exact h
  · intro q hq
    rw [e1, e2, e3]
    rcases s3 q hq with h | ⟨rfl, h⟩
    · exact k3 q h
    · exact h
  · intro q hq
    rw [e1, e2, e3, e4]
    rcases s4 q hq with h | ⟨rfl, h⟩
    · exact k4 q h
    · exact h

theorem mem_todos_of_cont (c n : Quadtree) (p q : Point)
    (h : contenido c = p ::ₘ contenido n) (hq : q ∈ todos c) : q ∈ todos n ∨ q = p := by
  rw [mem_todos_iff, h, Multiset.mem_cons] at hq
  rcases hq with hq | hq
  · exact Or.inr hq
  · exact Or.inl ((mem_todos_iff n q).mpr hq)

theorem canonico_subdividido (b : Rect) (ps : List Point) :
    Canonico (rama b []
      (hoja (hijosNuevos b).noroeste.boundary (ps.filter (fun q => ruta b q = 0)))
      (hoja (hijosNuevos b).noreste.boundary (ps.filter (fun q => ruta b q = 1)))
      (hoja (hijosNuevos b).suroeste.boundary (ps.filter (fun q => ruta b q = 2)))
      (hoja (hijosNuevos b).sureste.boundary (ps.filter (fun q => ruta b q = 3)))) := by
  have hr := ruta_eq_iff b
  refine ⟨?_, ?_, ?_, ?_, trivial, trivial, trivial, trivial⟩
  · intro q hq
    simp only [todos, List.mem_filter, decide_eq_true_eq] at hq
    exact (hr q).1.mp hq.2
  · intro q hq
    simp only [todos, List.mem_filter, decide_eq_true_eq] at hq
    exact (hr q).2.1.mp hq.2
  · intro q hq
    simp only [todos, List.mem_filter, decide_eq_true_eq] at hq
    exact (hr q).2.2.1.mp hq.2
  · intro q hq
    simp only [todos, List.mem_filter, decide_eq_true_eq] at hq
    exact (hr q).2.2.2.mp hq.2

/-- One step of `insertar` on a subdivided node keeps canonical placement, given that the
recursive calls do. -/
theorem canonico_insertar_rama (fuel : Nat) (b : Rect) (ps : List Point)
    (nw ne sw se : Quadtree) (p : Point) (r : Bool) (t1 : Quadtree)
    (ih : ∀ t p r t1, Inv t → Canonico t → insertar fuel t p = some (r, t1) → Canonico t1)
    (i1 : Inv nw) (i2 : Inv ne) (i3 : Inv sw) (i4 : Inv se)
    (hcan : Canonico (rama b ps nw ne sw se)) (hc : b.contains p = true)
    (hi : insertar (fuel + 1) (rama b ps nw ne sw se) p = some (r, t1)) :
    Canonico t1 := by
  have hcan0 := hcan
  obtain ⟨_, _, _, _, c1, c2, c3, c4⟩ := hcan
  rcases insertar_rama_primero fuel b ps nw ne sw se p r t1 i1 i2 i3 i4 hc hi with
    ⟨a, _, c, hcc, rfl⟩ | ⟨a1, a, _, c, hcc, rfl⟩ | ⟨a1, a2, a, _, c, hcc, rfl⟩ |
    ⟨a1, a2, a3, a, _, c, hcc, rfl⟩ | ⟨_, _, _, _, _, rfl⟩
  · have P := insertar_post fuel _ p _ c i1 hcc
    refine canonico_reemplazo b ps nw ne sw se c ne sw se p hcan0 P.borde rfl rfl rfl
      ?_ (fun q hq => Or.inl hq) (fun q hq => Or.inl hq) (fun q hq => Or.inl hq)
      (ih _ p _ c i1 c1 hcc) c2 c3 c4
    intro q hq
    rcases mem_todos_of_cont c nw p q (P.cont rfl) hq with h | h
    · exact Or.inl h
    · exact Or.inr ⟨h, a⟩
  · have P := insertar_post fuel _ p _ c i2 hcc
    refine canonico_reemplazo b ps nw ne sw se nw c sw se p hcan0 rfl P.borde rfl rfl
      (fun q hq => Or.inl hq) ?_ (fun q hq => Or.inl hq) (fun q hq => Or.inl hq)
      c1 (ih _ p _ c i2 c2 hcc) c3 c4
    intro q hq
    rcases mem_todos_of_cont c ne p q (P.cont rfl) hq with h | h
    · exact Or.inl h
    · exact Or.inr ⟨h, a1, a⟩
  · have P := insertar_post fuel _ p _ c i3 hcc
    refine canonico_reemplazo b ps nw ne sw se nw ne c se p hcan0 rfl rfl P.borde rfl
      (fun q hq => Or.inl hq) (fun q hq => Or.inl hq) ?_ (fun q hq => Or.inl hq)
      c1 c2 (ih _ p _ c i3 c3 hcc) c4
    intro q hq
    rcases mem_todos_of_cont c sw p q (P.cont rfl) hq with h | h
    · exact Or.inl h
    · exact Or.inr ⟨h, a1, a2, a⟩
  · have P := insertar_post fuel _ p _ c i4 hcc
    refine canonico_reemplazo b ps nw ne sw se nw ne sw c p hcan0 rfl rfl rfl P.borde
      (fun q hq => Or.inl hq) (fun q hq => Or.inl hq) (fun q hq => Or.inl hq) ?_
      c1 c2 c3 (ih _ p _ c i4 c4 hcc)
    intro q hq
    rcases mem_todos_of_cont c se p q (P.cont rfl) hq with h | h
    · exact Or.inl h
    · exact Or.inr ⟨h, a1, a2, a3, a⟩
  · exact hcan0

theorem insertar_canonico : ∀ (fuel : Nat) (t : Quadtree) (p : Point) (r : Bool)
    (t1 : Quadtree), Inv t → Canonico t → insertar fuel t p = some (r, t1) → Canonico t1 := by
  intro fuel
  induction fuel with
  | zero => intro t p r t1 _ _ h; simp [insertar] at h
  | succ fuel ih =>
    intro t p r t1 hinv hcan h
    by_cases hc : t.boundary.contains p = true
    swap
    · rw [insertar_fuera fuel t p (by simpa using hc)] at h
      simp only [Option.some.injEq, Prod.mk.injEq] at h
      rw [← h.2]
      exact hcan
    cases t with
    | hoja b ps =>
      simp only [boundary_hoja] at hc
      obtain ⟨hlen, hmem⟩ := hinv
      by_cases hl : ps.length < CAPACIDAD
      · rw [insertar_hoja_lt fuel b ps p hl] at h
        simp only [hc, ↓reduceIte, Option.some.injEq, Prod.mk.injEq] at h
        rw [← h.2]
        trivial
      · have hps : ps ≠ [] := by
          intro e; apply hl; rw [e]; simp [CAPACIDAD]
        cases fuel with
        | zero =>
          unfold insertar at h
          simp only [boundary_hoja, hc, Bool.not_true, Bool.false_eq_true, ↓reduceIte, hl] at h
          rw [subdividir_cero b ps hps] at h
          simp at h
        | succ n =>
          unfold insertar at h
          simp only [boundary_hoja, hc, Bool.not_true, Bool.false_eq_true, ↓reduceIte, hl] at h
          rw [subdividir_eq n b ps hlen] at h
          simp only at h
          have hcr := contains_of_ruta b
          have j1 := inv_hoja_filtro b (hijosNuevos b).noroeste.boundary ps 0 hlen
            (fun q => (hcr q).1)
          have j2 := inv_hoja_filtro b (hijosNuevos b).noreste.boundary ps 1 hlen
            (fun q => (hcr q).2.1)
          have j3 := inv_hoja_filtro b (hijosNuevos b).suroeste.boundary ps 2 hlen
            (fun q => (hcr q).2.2.1)
          have j4 := inv_hoja_filtro b (hijosNuevos b).sureste.boundary ps 3 hlen
            (fun q => (hcr q).2.2.2)
          have h2 : insertar (n + 1 + 1) (rama b []
              (hoja (hijosNuevos b).noroeste.boundary (ps.filter (fun q => ruta b q = 0)))
              (hoja (hijosNuevos b).noreste.boundary (ps.filter (fun q => ruta b q = 1)))
              (hoja (hijosNuevos b).suroeste.boundary (ps.filter (fun q => ruta b q = 2)))
              (hoja (hijosNuevos b).sureste.boundary (ps.filter (fun q => ruta b q = 3)))) p =
              some (r, t1) := by
            rw [insertar]
            simp only [boundary_rama, hc, Bool.not_true, Bool.false_eq_true, ↓reduceIte]
            exact h
          exact canonico_insertar_rama (n + 1) b [] _ _ _ _ p r t1 ih j1 j2 j3 j4
            (canonico_subdividido b ps) hc h2
    | rama b ps nw ne sw se =>
      simp only [boundary_rama] at hc
      obtain ⟨_, _, _, _, _, i1, i2, i3, i4, _⟩ := hinv
      exact canonico_insertar_rama fuel b ps nw ne sw se p r t1 ih i1 i2 i3 i4 hcan hc h


theorem canonico_fusionar (b : Rect) (ps : List Point) (c1 c2 c3 c4 : Quadtree)
    (h : Canonico (rama b ps c1 c2 c3 c4)) : Canonico (fusionar b ps c1 c2 c3 c4) := by
  rw [fusionar_eq]
  split_ifs
  · trivial
  · exact h

theorem todos_eliminar_subset (c : Quadtree) (p : Point) (hinv : Inv c) :
    ∀ q ∈ todos (eliminar c p).2, q ∈ todos c := by
  intro q hq
  have P := eliminar_post c p hinv
  cases hr : (eliminar c p).1 with
  | true =>
    rw [mem_todos_iff, P.cont hr, Multiset.mem_cons]
    exact Or.inr ((mem_todos_iff _ q).mp hq)
  | false =>
    rw [P.marco hr] at hq
    exact hq

theorem eliminar_canonico : ∀ (t : Quadtree) (p : Point),
    Inv t → Canonico t → Canonico (eliminar t p).2 := by
  intro t
  induction t with
  | hoja b ps =>
    intro p _ _
    unfold eliminar
    split_ifs
    · trivial
    · split <;> trivial
  | rama b ps nw ne sw se ih1 ih2 ih3 ih4 =>
    intro p hinv hcan
    have hcan0 := hcan
    obtain ⟨_, _, _, _, _, i1, i2, i3, i4, _⟩ := hinv
    obtain ⟨_, _, _, _, c1, c2, c3, c4⟩ := hcan
    have P1 := eliminar_post nw p i1
    have P2 := eliminar_post ne p i2
    have P3 := eliminar_post sw p i3
    have P4 := eliminar_post se p i4
    have S1 : ∀ q ∈ todos (eliminar nw p).2, q ∈ todos nw ∨
        (q = p ∧ nw.boundary.contains p = true) :=
      fun q hq => Or.inl (todos_eliminar_subset nw p i1 q hq)
    have S2 : ∀ q ∈ todos (eliminar ne p).2, q ∈ todos ne ∨
        (q = p ∧ nw.boundary.contains p = false ∧ ne.boundary.contains p = true) :=
      fun q hq => Or.inl (todos_eliminar_subset ne p i2 q hq)
    have S3 : ∀ q ∈ todos (eliminar sw p).2, q ∈ todos sw ∨
        (q = p ∧ nw.boundary.contains p = false ∧ ne.boundary.contains p = false ∧
          sw.boundary.contains p = true) :=
      fun q hq => Or.inl (todos_eliminar_subset sw p i3 q hq)
    have S4 : ∀ q ∈ todos (eliminar se p).2, q ∈ todos se ∨
        (q = p ∧ nw.boundary.contains p = false ∧ ne.boundary.contains p = false ∧
          sw.boundary.contains p = false ∧ se.boundary.contains p = true) :=
      fun q hq => Or.inl (todos_eliminar_subset se p i4 q hq)
    have K1 := ih1 p i1 c1
    have K2 := ih2 p i2 c2
    have K3 := ih3 p i3 c3
    have K4 := ih4 p i4 c4
    unfold eliminar
    simp only
    split_ifs
    · exact hcan0
    · exact canonico_fusionar _ _ _ _ _ _
        (canonico_reemplazo b ps nw ne sw se _ ne sw se p hcan0 P1.borde rfl rfl rfl
          S1 (fun q hq => Or.inl hq) (fun q hq => Or.inl hq) (fun q hq => Or.inl hq)
          K1 c2 c3 c4)
    · exact canonico_fusionar _ _ _ _ _ _
        (canonico_reemplazo b ps nw ne sw se _ _ sw se p hcan0 P1.borde P2.borde rfl rfl
          S1 S2 (fun q hq => Or.inl hq) (fun q hq => Or.inl hq) K1 K2 c3 c4)
    · exact canonico_fusionar _ _ _ _ _ _
        (canonico_reemplazo b ps nw ne sw se _ _ _ se p hcan0 P1.borde P2.borde P3.borde rfl
          S1 S2 S3 (fun q hq => Or.inl hq) K1 K2 K3 c4)
    · exact canonico_fusionar _ _ _ _ _ _
        (canonico_reemplazo b ps nw ne sw se _ _ _ _ p hcan0 P1.borde P2.borde P3.borde
          P4.borde S1 S2 S3 S4 K1 K2 K3 K4)
    · exact canonico_reemplazo b ps nw ne sw se _ _ _ _ p hcan0 P1.borde P2.borde P3.borde
        P4.borde S1 S2 S3 S4 K1 K2 K3 K4

theorem alcanzable_canonico (t : Quadtree) (h : Alcanzable t) : Canonico t := by
  induction h with
  | inicial region => trivial
  | trasInsertar fuel t p r t1 ht hi ih =>
    exact insertar_canonico fuel t p r t1 (alcanzable_inv t ht) ih hi
  | trasEliminar t p ht ih => exact eliminar_canonico t p (alcanzable_inv t ht) ih

theorem countP_hojas_eq_zero : ∀ (t : Quadtree) (p : Point),
    p ∉ todos t → (hojas t).countP (fun l => decide (p ∈ l)) = 0 := by
  intro t
  induction t with
  | hoja b ps => intro p hp; simpa [hojas, todos] using hp
  | rama b ps nw ne sw se ih1 ih2 ih3 ih4 =>
    intro p hp
    simp only [todos, List.mem_append, not_or] at hp
    obtain ⟨⟨⟨h1, h2⟩, h3⟩, h4⟩ := hp
    simp only [hojas, List.countP_append, ih1 p h1, ih2 p h2, ih3 p h3, ih4 p h4]

/-- In a canonically placed tree the copies of one coordinate pair sit in one leaf. -/
theorem una_hoja : ∀ (t : Quadtree) (p : Point),
    Canonico t → (hojas t).countP (fun l => decide (p ∈ l)) ≤ 1 := by
  intro t
  induction t with
  | hoja b ps =>
    intro p _
    simp only [hojas, List.countP_cons, List.countP_nil]
    split_ifs <;> omega
  | rama b ps nw ne sw se ih1 ih2 ih3 ih4 =>
    intro p hcan
    obtain ⟨k1, k2, k3, k4, c1, c2, c3, c4⟩ := hcan
    have a1 := ih1 p c1
    have a2 := ih2 p c2
    have a3 := ih3 p c3
    have a4 := ih4 p c4
    simp only [hojas, List.countP_append]
    by_cases h1 : p ∈ todos nw
    · have n2 : p ∉ todos ne := fun h => by
        have := (k2 p h).1; rw [k1 p h1] at this; cases this
      have n3 : p ∉ todos sw := fun h => by
        have := (k3 p h).1; rw [k1 p h1] at this; cases this
      have n4 : p ∉ todos se := fun h => by
        have := (k4 p h).1; rw [k1 p h1] at this; cases this
      rw [countP_hojas_eq_zero ne p n2, countP_hojas_eq_zero sw p n3,
        countP_hojas_eq_zero se p n4]
      omega
    · rw [countP_hojas_eq_zero nw p h1]
      by_cases h2 : p ∈ todos ne
      · have n3 : p ∉ todos sw := fun h => by
          have := (k3 p h).2.1; rw [(k2 p h2).2] at this; cases this
        have n4 : p ∉ todos se := fun h => by
          have := (k4 p h).2.1; rw [(k2 p h2).2] at this; cases this
        rw [countP_hojas_eq_zero sw p n3, countP_hojas_eq_zero se p n4]
        omega
      · rw [countP_hojas_eq_zero ne p h2]
        by_cases h3 : p ∈ todos sw
        · have n4 : p ∉ todos se := fun h => by
            have := (k4 p h).2.2.1; rw [(k3 p h3).2.2] at this; cases this
          rw [countP_hojas_eq_zero se p n4]
          omega
        · rw [countP_hojas_eq_zero sw p h3]
          omega

/-- C20. Canonical placement: in every reachable tree each stored point lies, below every
subdivided node above it, under the first child in the order NW, NE, SW, SE whose boundary
contains it; consequently at most one leaf holds points with any given coordinates. -/
theorem colocacion_canonica (t : Quadtree) (h : Alcanzable t) :
    Canonico t ∧ ∀ p : Point, (hojas t).countP (fun l => decide (p ∈ l)) ≤ 1 :=
  ⟨alcanzable_canonico t h, fun p => una_hoja t p (alcanzable_canonico t h)⟩

/-- C20 at the tree of `main`. -/
theorem colocacion_canonica_witness :
    Alcanzable arbolMain ∧
      (Canonico arbolMain ∧
        ∀ p : Point, (hojas arbolMain).countP (fun l => decide (p ∈ l)) ≤ 1) :=
  ⟨alcanzable_arbolMain, colocacion_canonica arbolMain alcanzable_arbolMain⟩


/-! ## The embedding simulates the pointer-level representation -/

theorem hijosNuevosP_eq (b : Rect) : hijosNuevosP b = repH (hijosNuevos b) := rfl

theorem insertarHijosP_rep (ins : Quadtree → Point → Option (Bool × Quadtree))
    (insP : Puntero → Point → Salida (Bool × Puntero))
    (hsim : ∀ c p, insP (rep c) p = aSalida (ins c p)) (hs : Hijos) (p : Point) :
    insertarHijosP insP (repH hs) p =
      match insertarHijos ins hs p with
      | none => Salida.agotado
      | some (r, hs1) => Salida.ok (r, repH hs1) := by
  obtain ⟨nw, ne, sw, se⟩ := hs
  simp only [insertarHijosP, insertarHijos, repH, hsim]
  rcases ins nw p with _ | ⟨_ | _, c1⟩ <;> simp only [aSalida]
  rcases ins ne p with _ | ⟨_ | _, c2⟩ <;> simp only [aSalida]
  rcases ins sw p with _ | ⟨_ | _, c3⟩ <;> simp only [aSalida]
  rcases ins se p with _ | ⟨r4, c4⟩ <;> simp only [aSalida]

theorem redistribuirP_rep (ins : Quadtree → Point → Option (Bool × Quadtree))
    (insP : Puntero → Point → Salida (Bool × Puntero))
    (hsim : ∀ c p, insP (rep c) p = aSalida (ins c p)) :
    ∀ (ps : List Point) (hs : Hijos),
      redistribuirP insP ps (repH hs) =
        match redistribuir ins ps hs with
        | none => Salida.agotado
        | some hs1 => Salida.ok (repH hs1) := by
  intro ps
  induction ps with
  | nil => intro hs; rfl
  | cons q ps ih =>
    intro hs
    simp only [redistribuirP, redistribuir, insertarHijosP_rep ins insP hsim]
    rcases insertarHijos ins hs q with _ | ⟨r, hs1⟩
    · rfl
    · exact ih hs1

theorem cadenaP_rep (ins : Quadtree → Point → Option (Bool × Quadtree))
    (insP : Puntero → Point → Salida (Bool × Puntero))
    (hsim : ∀ c p, insP (rep c) p = aSalida (ins c p))
    (b : Rect) (ps : List Point) (nw ne sw se : Quadtree) (p : Point) :
    cadenaP insP b ps true (repH ⟨nw, ne, sw, se⟩) p =
      aSalida (insertarRama ins (rama b ps nw ne sw se) p) := by
  simp only [cadenaP, insertarRama, insertarHijosP_rep ins insP hsim]
  rcases insertarHijos ins ⟨nw, ne, sw, se⟩ p with _ | ⟨r, hs1⟩
  · rfl
  · rfl

/-- Calls of `insertar` through a pointer to a represented tree have the outcome of the
embedding; in particular they never dereference a null pointer. -/
theorem insertarP_rep : ∀ (fuel : Nat) (t : Quadtree) (p : Point),
    insertarP fuel (rep t) p = aSalida (insertar fuel t p) := by
  intro fuel
  induction fuel with
  | zero => intro t p; cases t <;> rfl
  | succ fuel ih =>
    intro t p
    cases t with
    | hoja b ps =>
      simp only [rep, insertarP, insertar, boundary_hoja]
      by_cases hc : b.contains p = true
      swap
      · simp only [Bool.not_eq_true] at hc
        simp [hc, aSalida, rep]
      simp only [hc, Bool.not_true, Bool.false_eq_true, ↓reduceIte, Bool.not_false]
      by_cases hl : ps.length < CAPACIDAD
      · simp [hl, aSalida, rep]
      · simp only [hl, ↓reduceIte, hijosNuevosP_eq, redistribuirP_rep _ _ ih, subdividir]
        rcases redistribuir (insertar fuel) ps (hijosNuevos b) with _ | hs
        · rfl
        · exact cadenaP_rep _ _ ih b [] hs.noroeste hs.noreste hs.suroeste hs.sureste p
    | rama b ps nw ne sw se =>
      simp only [rep, insertarP, insertar, boundary_rama]
      by_cases hc : b.contains p = true
      swap
      · simp only [Bool.not_eq_true] at hc
        simp [hc, aSalida, rep]
      simp only [hc, Bool.not_true, Bool.false_eq_true, ↓reduceIte]
      exact cadenaP_rep _ _ ih b ps nw ne sw se p

theorem fusionarP_rep (b : Rect) (ps : List Point) (c1 c2 c3 c4 : Quadtree) :
    fusionarP b ps true (rep c1) (rep c2) (rep c3) (rep c4) =
      Salida.ok (rep (fusionar b ps c1 c2 c3 c4)) := by
  rw [fusionar_eq]
  cases c1 <;> cases c2 <;> cases c3 <;> cases c4 <;>
    (simp only [rep, fusionarP, dividido, puntos, ↓reduceIte, Bool.false_eq_true, and_self,
      and_true, and_false, false_and, true_and, Bool.true_eq_false]
     try (split_ifs <;> rfl))

theorem eliminarP_rep : ∀ (t : Quadtree) (p : Point),
    eliminarP (rep t) p = Salida.ok ((eliminar t p).1, rep (eliminar t p).2) := by
  intro t
  induction t with
  | hoja b ps =>
    intro p
    simp only [rep, eliminarP, eliminar]
    by_cases hc : b.contains p = true
    swap
    · simp only [Bool.not_eq_true] at hc
      simp [hc, rep]
    simp only [hc, Bool.not_true, Bool.false_eq_true, ↓reduceIte, Bool.not_false]
    rcases borrarPrimero ps p with _ | ps1 <;> simp [rep]
  | rama b ps nw ne sw se ih1 ih2 ih3 ih4 =>
    intro p
    simp only [rep, eliminarP, eliminar, ih1, ih2, ih3, ih4]
    by_cases hc : b.contains p = true
    swap
    · simp only [Bool.not_eq_true] at hc
      simp [hc, rep]
    simp only [hc, Bool.not_true, Bool.false_eq_true, ↓reduceIte]
    rcases eliminar nw p with ⟨_ | _, c1⟩
    swap
    · simp only [trasBorrarP, fusionarP_rep, ↓reduceIte]
    rcases eliminar ne p with ⟨_ | _, c2⟩
    swap
    · simp only [trasBorrarP, fusionarP_rep, ↓reduceIte, Bool.false_eq_true]
    rcases eliminar sw p with ⟨_ | _, c3⟩
    swap
    · simp only [trasBorrarP, fusionarP_rep, ↓reduceIte, Bool.false_eq_true]
    rcases eliminar se p with ⟨_ | _, c4⟩
    swap
    · simp only [trasBorrarP, fusionarP_rep, ↓reduceIte, Bool.false_eq_true]
    simp only [↓reduceIte, Bool.false_eq_true, rep]

theorem buscarEnRangoP_rep : ∀ (t : Quadtree) (range : Rect) (encontrados : List Point),
    buscarEnRangoP (rep t) range encontrados = Salida.ok (buscarEnRango t range encontrados) := by
  intro t
  induction t with
  | hoja b ps =>
    intro range enc
    simp only [rep, buscarEnRangoP, buscarEnRango]
    cases b.intersects range <;> simp
  | rama b ps nw ne sw se ih1 ih2 ih3 ih4 =>
    intro range enc
    simp only [rep, buscarEnRangoP, buscarEnRango, ih1, ih2, ih3, ih4]
    cases b.intersects range <;> simp


theorem I1_rep : ∀ (t : Quadtree), Inv t → I1 (rep t) := by
  intro t
  induction t with
  | hoja b ps => intro _; exact Or.inl ⟨rfl, rfl, rfl, rfl, rfl⟩
  | rama b ps nw ne sw se ih1 ih2 ih3 ih4 =>
    intro hinv
    obtain ⟨hps, _, _, _, _, i1, i2, i3, i4, _⟩ := hinv
    exact Or.inr ⟨rfl, hps, ih1 i1, ih2 i2, ih3 i3, ih4 i4⟩

theorem alcanzableP_rep (c : Puntero) (h : AlcanzableP c) : ∃ t, Alcanzable t ∧ c = rep t := by
  induction h with
  | inicial region => exact ⟨vacio region, Alcanzable.inicial region, rfl⟩
  | trasInsertar fuel c p r c1 _ hi ih =>
    obtain ⟨t, ht, rfl⟩ := ih
    rw [insertarP_rep] at hi
    rcases e : insertar fuel t p with _ | ⟨r1, t1⟩
    · rw [e] at hi
      simp [aSalida] at hi
    · rw [e] at hi
      simp only [aSalida, Salida.ok.injEq, Prod.mk.injEq] at hi
      obtain ⟨rfl, rfl⟩ := hi
      exact ⟨t1, Alcanzable.trasInsertar fuel t p r1 t1 ht e, rfl⟩
  | trasEliminar c p r c1 _ hi ih =>
    obtain ⟨t, ht, rfl⟩ := ih
    rw [eliminarP_rep] at hi
    simp only [Salida.ok.injEq, Prod.mk.injEq] at hi
    obtain ⟨_, rfl⟩ := hi
    exact ⟨_, Alcanzable.trasEliminar t p ht, rfl⟩

theorem rep_alcanzable (t : Quadtree) (h : Alcanzable t) : AlcanzableP (rep t) := by
  induction h with
  | inicial region => exact AlcanzableP.inicial region
  | trasInsertar fuel t p r t1 _ hi ih =>
    refine AlcanzableP.trasInsertar fuel (rep t) p r (rep t1) ih ?_
    rw [insertarP_rep, hi]
    rfl
  | trasEliminar t p _ ih =>
    exact AlcanzableP.trasEliminar (rep t) p _ _ ih (eliminarP_rep t p)

/-- C17. Invariant I1 as the code represents it: every node of a reachable pointer-level
state has either `dividido = false` and four null child pointers, or `dividido = true`, four
child nodes and an empty own point list; and no call of `insertar`, `eliminar` or
`buscarEnRango` on such a state dereferences a null child pointer. -/
theorem invariante_I1 (c : Puntero) (h : AlcanzableP c) :
    I1 c ∧ (∀ fuel p, insertarP fuel c p ≠ Salida.nulo) ∧
      (∀ p, ∃ r c1, eliminarP c p = Salida.ok (r, c1)) ∧
      (∀ range encontrados, ∃ l, buscarEnRangoP c range encontrados = Salida.ok l) := by
  obtain ⟨t, ht, rfl⟩ := alcanzableP_rep c h
  refine ⟨I1_rep t (alcanzable_inv t ht), ?_, ?_, ?_⟩
  · intro fuel p
    rw [insertarP_rep]
    rcases insertar fuel t p with _ | ⟨r, t1⟩ <;> simp [aSalida]
  · intro p
    exact ⟨_, _, eliminarP_rep t p⟩
  · intro range enc
    exact ⟨_, buscarEnRangoP_rep t range enc⟩

/-- C17 at the pointer-level state of `main` after its eight insertions. -/
theorem invariante_I1_witness :
    AlcanzableP (rep arbolMain) ∧
      (I1 (rep arbolMain) ∧ (∀ fuel p, insertarP fuel (rep arbolMain) p ≠ Salida.nulo) ∧
        (∀ p, ∃ r c1, eliminarP (rep arbolMain) p = Salida.ok (r, c1)) ∧
        (∀ range encontrados, ∃ l,
          buscarEnRangoP (rep arbolMain) range encontrados = Salida.ok l)) :=
  ⟨rep_alcanzable arbolMain alcanzable_arbolMain,
    invariante_I1 (rep arbolMain) (rep_alcanzable arbolMain alcanzable_arbolMain)⟩

end Hito2

namespace Hito2
open Quadtree

/-! ## Doubles -/

theorem containsR_id (r : Rect) (p : Point) : r.containsR id p = r.contains p := rfl

theorem hijosNuevosR_id (b : Rect) : hijosNuevosR id b = hijosNuevos b := rfl

/-- With rounding replaced by the identity, the rounded `insertar` is the exact one. -/
theorem insertarR_id : ∀ (fuel : Nat), insertarR id fuel = insertar fuel := by
  intro fuel
  induction fuel with
  | zero => rfl
  | succ fuel ih =>
    funext t p
    unfold insertarR insertar
    simp only [containsR_id, ih, subdividirR, subdividir, hijosNuevosR_id]

/-- C15 fails on doubles: the leaf over `Rect(1, 0, 2^-52, 8)` holding four copies of
`(1 + 2^-52, 1)`, a point inside its boundary, is built by four insertions, and a fifth
`insertar` of the same point completes and returns false: none of the four children,
whose right edges round to 1, contains the point, so the four copies are dropped. -/
theorem insertar_coincidentes_completa_en_double :
    ([rectDoble.x, rectDoble.y, rectDoble.w, rectDoble.h, puntoBorde.x, puntoBorde.y].map
        redondear =
      [rectDoble.x, rectDoble.y, rectDoble.w, rectDoble.h, puntoBorde.x, puntoBorde.y]) ∧
    insertarTodosD 1 (vacio rectDoble) [puntoBorde, puntoBorde, puntoBorde, puntoBorde] =
      some ([true, true, true, true], hojaBorde) ∧
    rectDoble.containsD puntoBorde = true ∧
    insertarD 2 hojaBorde puntoBorde =
      some (false, rama rectDoble [] (hoja ⟨1 - eps / 2, 4, eps / 2, 4⟩ [])
        (hoja ⟨1, 4, eps / 2, 4⟩ []) (hoja ⟨1 - eps / 2, -4, eps / 2, 4⟩ [])
        (hoja ⟨1, -4, eps / 2, 4⟩ [])) := by
  refine ⟨by decide!, by decide!, by decide!, by decide!⟩

/-- C13 fails on doubles: on the root over `Rect(1, 0, 2^-52, 8)` after five insertions,
`insertar((1 - 2^-53, 0))` completes and returns true, the point lies inside the root
boundary and inside the boundary of the north-west child, the first in the order, yet that
child is subdivided without receiving the point (its own children do not contain it) and
the north-east child receives it: two children change. -/
theorem insertar_cambia_dos_hijos_en_double :
    ([rectDoble.x, rectDoble.y, rectDoble.w, rectDoble.h, puntoLinea.x, puntoLinea.y].map
        redondear =
      [rectDoble.x, rectDoble.y, rectDoble.w, rectDoble.h, puntoLinea.x, puntoLinea.y]) ∧
    insertarTodosD 2 (vacio rectDoble) [⟨1, 1⟩, ⟨1, 2⟩, ⟨1, 3⟩, ⟨1, 5⟩, ⟨1, -1⟩] =
      some ([true, true, true, true, true],
        rama rectDoble [] dobleNO dobleNE dobleSO dobleSE) ∧
    rectDoble.containsD puntoLinea = true ∧
    dobleNO.boundary.containsD puntoLinea = true ∧
    insertarD 3 (rama rectDoble [] dobleNO dobleNE dobleSO dobleSE) puntoLinea =
      some (true, rama rectDoble [] dobleNOTras (hoja ⟨1, 4, eps / 2, 4⟩ [puntoLinea])
        dobleSO dobleSE) ∧
    dobleNOTras ≠ dobleNO ∧ puntoLinea ∉ todos dobleNOTras ∧
    hoja ⟨1, 4, eps / 2, 4⟩ [puntoLinea] ≠ dobleNE := by
  refine ⟨by decide!, by decide!, by decide!, by decide!, by decide!, by decide!, by decide!,
    by decide!⟩

end Hito2
